import Mathlib

/-!
Verification of the game-logic core of the Maze repository
(`src/app.component.ts`).

The TypeScript component is shallowly embedded: the grid is a
`List (List Char)` exactly as the source's `string[][]` of one-character
strings, positions are integer pairs `(x, y)` as in the source, and every
call to `Math.random()` is modelled by reading the next entry of an
arbitrary tape of natural numbers (`Rng`), reduced modulo the requested
range; quantifying over all tapes quantifies over all random outcomes.
The recursive maze carver is given explicit fuel; `size * size + 1` fuel is
shown sufficient (each recursive call turns at least one wall cell into a
path cell, and there are only `size * size` cells).
-/

namespace Maze

/-- A position, `(x, y)` with `x` the column and `y` the row, as in the
source component. -/
abbrev Pos := ℤ × ℤ

/-- The grid type: `string[][]` in the source, rows of one-character cells. -/
abbrev Grid := List (List Char)

/-- Reading `maze[y][x]`.  The source only reads in-bounds cells; reading out
of bounds (including negative coordinates) is given the wall default so that
`isOpen` automatically confines open cells to the grid. -/
def getCell (m : Grid) (x y : ℤ) : Char :=
  if 0 ≤ x ∧ 0 ≤ y then (m.getD y.toNat []).getD x.toNat 'W' else 'W'

/-- Writing `maze[y][x] = c`.  The source only writes in-bounds cells; an
out-of-bounds write is a no-op here (`List.set` already ignores indices past
the end). -/
def setCell (m : Grid) (x y : ℤ) (c : Char) : Grid :=
  if 0 ≤ x ∧ 0 ≤ y then m.set y.toNat ((m.getD y.toNat []).set x.toNat c) else m

/-- A cell is open when it is inside the grid and not a wall. -/
def isOpen (m : Grid) (p : Pos) : Prop := getCell m p.1 p.2 ≠ 'W'

instance (m : Grid) (p : Pos) : Decidable (isOpen m p) := by
  unfold isOpen; infer_instance

/-- The grid is a `size × size` square array. -/
def Rect (m : Grid) (size : ℕ) : Prop :=
  m.length = size ∧ ∀ row ∈ m, row.length = size

/-- The random tape: each `Math.random()`-derived draw
`Math.floor(Math.random() * n)` is modelled as the next tape entry modulo
`n`, so ranging over all tapes ranges over all sequences of draws. -/
structure Rng where
  tape : ℕ → ℕ
  idx : ℕ

/-- Draw a value in `[0, n)` (for the `n ≥ 1` ranges the source uses). -/
def Rng.next (r : Rng) (n : ℕ) : ℕ × Rng :=
  (r.tape r.idx % n, ⟨r.tape, r.idx + 1⟩)

/-- Swap two entries of a list (one Fisher-Yates step). -/
def listSwap (l : List α) (i j : ℕ) : List α :=
  match l.get? i, l.get? j with
  | some a, some b => (l.set i b).set j a
  | _, _ => l

/-- The four step-2 carving directions in source order:
`[[0, -2], [0, 2], [-2, 0], [2, 0]]`. -/
def carveDirs : List (ℤ × ℤ) := [(0, -2), (0, 2), (-2, 0), (2, 0)]

/-- The source's Fisher-Yates shuffle of the four carving directions
(`for i = 3; i > 0; i--` with `j = floor(random() * (i + 1))`). -/
def shuffleDirs (rng : Rng) : List (ℤ × ℤ) × Rng :=
  let (j3, rng) := rng.next 4
  let l := listSwap carveDirs 3 j3
  let (j2, rng) := rng.next 3
  let l := listSwap l 2 j2
  let (j1, rng) := rng.next 2
  let l := listSwap l 1 j1
  (l, rng)

/-- One direction attempt of the carver: if the step-2 neighbour is strictly
inside the border and still a wall, knock down the connecting wall cell and
recurse (the recursive call is passed in as `next`). -/
def carveStep (next : Grid → ℤ → ℤ → Rng → Grid × Rng) (size : ℕ)
    (cx cy dx dy : ℤ) (m : Grid) (rng : Rng) : Grid × Rng :=
  let nx := cx + dx
  let ny := cy + dy
  if 0 < ny ∧ ny < (size : ℤ) - 1 ∧ 0 < nx ∧ nx < (size : ℤ) - 1 ∧
      getCell m nx ny = 'W' then
    next (setCell m (nx - dx / 2) (ny - dy / 2) ' ') nx ny rng
  else (m, rng)

/-- The recursive randomized depth-first carver (`carve` in `generateMaze`),
with explicit fuel.  Each invocation marks its cell as path, shuffles the
four directions, and attempts them in order, threading the grid and the
random tape. -/
def carve : ℕ → ℕ → Grid → ℤ → ℤ → Rng → Grid × Rng
  | 0, _, m, _, _, rng => (m, rng)
  | fuel + 1, size, m, cx, cy, rng =>
    let m1 := setCell m cx cy ' '
    let (ds, rng1) := shuffleDirs rng
    ds.foldl
      (fun acc d => carveStep (carve fuel size) size cx cy d.1 d.2 acc.1 acc.2)
      (m1, rng1)

/-- One wall-removal attempt (the body of the removal loop in
`generateMaze`): pick a random interior cell; if it is a wall flanked by two
opposite open cells, open it. -/
def removalStep (size : ℕ) (m : Grid) (rng : Rng) : Grid × Rng :=
  let (a, rng) := rng.next (size - 2)
  let rx : ℤ := (a : ℤ) + 1
  let (b, rng) := rng.next (size - 2)
  let ry : ℤ := (b : ℤ) + 1
  if getCell m rx ry = 'W' then
    if (0 < rx ∧ rx < (size : ℤ) - 1 ∧
        getCell m (rx - 1) ry ≠ 'W' ∧ getCell m (rx + 1) ry ≠ 'W') ∨
       (0 < ry ∧ ry < (size : ℤ) - 1 ∧
        getCell m rx (ry - 1) ≠ 'W' ∧ getCell m rx (ry + 1) ≠ 'W') then
      (setCell m rx ry ' ', rng)
    else (m, rng)
  else (m, rng)

/-- The wall-removal loop, `removalIterations` many attempts. -/
def removalLoop : ℕ → ℕ → Grid → Rng → Grid × Rng
  | 0, _, m, rng => (m, rng)
  | n + 1, size, m, rng =>
    let (m1, rng1) := removalStep size m rng
    removalLoop n size m1 rng1

/-- Grid side length: `7 + (min(level, 30) - 1) * 2`, computed over ℤ as in
the source (for every `level ≥ 1` this is `7 + 2 * (min level 30 - 1)`). -/
def mazeSize (level : ℕ) : ℕ := (7 + (min (level : ℤ) 30 - 1) * 2).toNat

/-- `generateMaze(level)`: an all-wall grid, depth-first carving from
`(1, 1)`, `floor(size * level * 0.2)` wall-removal attempts, then the Start
and Exit cells are forced. -/
def generateMaze (level : ℕ) (rng : Rng) : Grid × Rng :=
  let size := mazeSize level
  let m0 : Grid := List.replicate size (List.replicate size 'W')
  let (m1, rng1) := carve (size * size + 1) size m0 1 1 rng
  let (m2, rng2) := removalLoop (size * level / 5) size m1 rng1
  (setCell (setCell m2 1 1 'S') ((size : ℤ) - 2) ((size : ℤ) - 2) 'E', rng2)

end Maze

namespace Maze

/-! ### List helper lemmas -/

theorem getD_set_ne {α : Type} (l : List α) (i j : ℕ) (a d : α) (h : i ≠ j) :
    (l.set i a).getD j d = l.getD j d := by
  simp only [List.getD_eq_getElem?_getD, List.getElem?_set_ne h]

theorem getD_set_self {α : Type} (l : List α) (i : ℕ) (a d : α)
    (h : i < l.length) : (l.set i a).getD i d = a := by
  simp only [List.getD_eq_getElem?_getD, List.getElem?_set_self h,
    Option.getD_some]

theorem set_of_ge {α : Type} (l : List α) (i : ℕ) (a : α)
    (h : ¬ i < l.length) : l.set i a = l :=
  List.set_eq_of_length_le (by omega)

theorem getD_mem {α : Type} {l : List α} {i : ℕ} (d : α) (h : i < l.length) :
    l.getD i d ∈ l := by
  rw [List.getD_eq_getElem?_getD, List.getElem?_eq_getElem h]
  exact List.getElem_mem h

/-! ### Basic grid lemmas -/

theorem length_setCell (m : Grid) (x y : ℤ) (c : Char) :
    (setCell m x y c).length = m.length := by
  unfold setCell; split <;> simp

theorem rect_setCell {m : Grid} {size : ℕ} (h : Rect m size) (x y : ℤ) (c : Char) :
    Rect (setCell m x y c) size := by
  obtain ⟨h1, h2⟩ := h
  unfold setCell
  split
  · by_cases hy : y.toNat < m.length
    · refine ⟨by simp [h1], fun row hrow => ?_⟩
      rcases List.mem_or_eq_of_mem_set hrow with hmem | heq
      · exact h2 row hmem
      · subst heq
        rw [List.length_set]
        exact h2 _ (getD_mem [] hy)
    · rw [set_of_ge _ _ _ hy]
      exact ⟨h1, h2⟩
  · exact ⟨h1, h2⟩

theorem getCell_setCell_ne {x y x' y' : ℤ} (m : Grid) (c : Char)
    (hne : (x', y') ≠ (x, y)) :
    getCell (setCell m x y c) x' y' = getCell m x' y' := by
  by_cases hw : 0 ≤ x ∧ 0 ≤ y
  · by_cases hr : 0 ≤ x' ∧ 0 ≤ y'
    · unfold getCell setCell
      rw [if_pos hw, if_pos hr, if_pos hr]
      by_cases hyy : y'.toNat = y.toNat
      · have hxx : x'.toNat ≠ x.toNat := by
          intro hc
          apply hne
          rw [Prod.mk.injEq]
          omega
        by_cases hl : y.toNat < m.length
        · rw [hyy, getD_set_self _ _ _ _ hl, getD_set_ne _ _ _ _ _ (Ne.symm hxx)]
        · rw [set_of_ge _ _ _ hl]
      · rw [getD_set_ne _ _ _ _ _ (fun hc => hyy hc.symm)]
    · unfold getCell
      rw [if_neg hr, if_neg hr]
  · unfold setCell
    rw [if_neg hw]

theorem getCell_setCell_self {x y : ℤ} (m : Grid) (c : Char)
    (hx : 0 ≤ x) (hy : 0 ≤ y) (hyl : y.toNat < m.length)
    (hxl : x.toNat < (m.getD y.toNat []).length) :
    getCell (setCell m x y c) x y = c := by
  unfold getCell setCell
  rw [if_pos ⟨hx, hy⟩, if_pos ⟨hx, hy⟩, getD_set_self _ _ _ _ hyl,
    getD_set_self _ _ _ _ hxl]

theorem getCell_setCell_cases (m : Grid) (x y x' y' : ℤ) (c : Char) :
    getCell (setCell m x y c) x' y' = getCell m x' y' ∨
    ((x', y') = (x, y) ∧ getCell (setCell m x y c) x' y' = c) := by
  by_cases hne : (x', y') = (x, y)
  · have hx : x' = x := by rw [Prod.mk.injEq] at hne; exact hne.1
    have hy : y' = y := by rw [Prod.mk.injEq] at hne; exact hne.2
    subst hx; subst hy
    by_cases hw : 0 ≤ x' ∧ 0 ≤ y'
    · by_cases hyl : y'.toNat < m.length
      · by_cases hxl : x'.toNat < (m.getD y'.toNat []).length
        · exact Or.inr ⟨rfl, getCell_setCell_self m c hw.1 hw.2 hyl hxl⟩
        · left
          unfold getCell setCell
          rw [if_pos hw]
          rw [if_pos hw]
          rw [if_pos hw]
          rw [getD_set_self _ _ _ _ hyl, set_of_ge _ _ _ hxl]
      · left
        unfold setCell
        rw [if_pos hw, set_of_ge _ _ _ hyl]
    · left
      unfold setCell
      rw [if_neg hw]
  · exact Or.inl (getCell_setCell_ne m c hne)

theorem isOpen_setCell_of_isOpen {m : Grid} {p : Pos} {x y : ℤ} {c : Char}
    (hc : c ≠ 'W') (h : isOpen m p) : isOpen (setCell m x y c) p := by
  unfold isOpen at *
  rcases getCell_setCell_cases m x y p.1 p.2 c with heq | ⟨_, heq⟩ <;> rw [heq]
  · exact h
  · exact hc

theorem isOpen_setCell_elim {m : Grid} {p : Pos} {x y : ℤ} {c : Char}
    (h : isOpen (setCell m x y c) p) : isOpen m p ∨ p = (x, y) := by
  by_cases hne : p = (x, y)
  · exact Or.inr hne
  · left
    unfold isOpen at *
    rwa [getCell_setCell_ne m c (by simpa using hne)] at h

theorem getCell_replicate (size : ℕ) (x y : ℤ) :
    getCell (List.replicate size (List.replicate size 'W')) x y = 'W' := by
  unfold getCell
  split
  · simp only [List.getD_eq_getElem?_getD, List.getElem?_replicate]
    split
    · simp only [Option.getD_some, List.getElem?_replicate]
      split <;> simp
    · rfl
  · rfl

theorem rect_replicate (size : ℕ) :
    Rect (List.replicate size (List.replicate size 'W')) size := by
  constructor
  · simp
  · intro row hrow
    rw [List.eq_of_mem_replicate hrow]
    simp

theorem rect_row_length {m : Grid} {size : ℕ} (h : Rect m size) {y : ℕ}
    (hy : y < size) : (m.getD y []).length = size := by
  obtain ⟨h1, h2⟩ := h
  exact h2 _ (getD_mem [] (by omega))

/-- In a rectangular grid, writing strictly inside the square is effective. -/
theorem getCell_setCell_self_rect {m : Grid} {size : ℕ} (h : Rect m size)
    {x y : ℤ} (c : Char) (hx0 : 0 ≤ x) (hxs : x < (size : ℤ))
    (hy0 : 0 ≤ y) (hys : y < (size : ℤ)) :
    getCell (setCell m x y c) x y = c := by
  have h1 := h.1
  apply getCell_setCell_self m c hx0 hy0
  · omega
  · rw [rect_row_length h (by omega)]
    omega

end Maze

namespace Maze

/-! ### Adjacency and reachability -/

/-- Strictly inside the border of a `size × size` grid. -/
def Inner (size : ℕ) (p : Pos) : Prop :=
  0 < p.1 ∧ p.1 < (size : ℤ) - 1 ∧ 0 < p.2 ∧ p.2 < (size : ℤ) - 1

/-- A cell of the step-2 carving lattice: odd coordinates strictly inside
the border. -/
def LatticePos (size : ℕ) (p : Pos) : Prop :=
  Inner size p ∧ p.1 % 2 = 1 ∧ p.2 % 2 = 1

/-- Cardinal (4-way) adjacency of two cells. -/
def Adj (p q : Pos) : Prop :=
  (p.1 = q.1 ∧ (p.2 = q.2 + 1 ∨ q.2 = p.2 + 1)) ∨
  (p.2 = q.2 ∧ (p.1 = q.1 + 1 ∨ q.1 = p.1 + 1))

theorem adj_symm {p q : Pos} (h : Adj p q) : Adj q p := by
  unfold Adj at *
  omega

/-- Reachability through open (non-wall) cells, the notion of
"path of non-wall cells" used throughout the specification. -/
inductive Reach (m : Grid) : Pos → Pos → Prop
  | refl (p : Pos) (h : isOpen m p) : Reach m p p
  | tail {p q r : Pos} (hpq : Reach m p q) (hadj : Adj q r) (hr : isOpen m r) :
      Reach m p r

theorem Reach.isOpen_src {m : Grid} {p q : Pos} (h : Reach m p q) : isOpen m p := by
  induction h with
  | refl h => exact h
  | tail _ _ _ ih => exact ih

theorem Reach.isOpen_dst {m : Grid} {p q : Pos} (h : Reach m p q) : isOpen m q := by
  induction h with
  | refl h => exact h
  | tail _ _ hr _ => exact hr

theorem Reach.trans {m : Grid} {p q r : Pos} (h1 : Reach m p q)
    (h2 : Reach m q r) : Reach m p r := by
  induction h2 with
  | refl _ => exact h1
  | tail _ hadj hr ih => exact Reach.tail ih hadj hr

theorem Reach.head {m : Grid} {p q r : Pos} (hp : isOpen m p) (hadj : Adj p q)
    (h : Reach m q r) : Reach m p r :=
  Reach.trans (Reach.tail (Reach.refl p hp) hadj h.isOpen_src) h

theorem Reach.symm {m : Grid} {p q : Pos} (h : Reach m p q) : Reach m q p := by
  induction h with
  | refl h => exact Reach.refl _ h
  | tail hpq hadj hr ih => exact Reach.head hr (adj_symm hadj) ih

theorem Reach.mono {m m' : Grid} {p q : Pos}
    (hmono : ∀ r, isOpen m r → isOpen m' r) (h : Reach m p q) : Reach m' p q := by
  induction h with
  | refl h => exact Reach.refl _ (hmono _ h)
  | tail _ hadj hr ih => exact Reach.tail ih hadj (hmono _ hr)

/-- Every open cell is reachable from `s`. -/
def AllReach (m : Grid) (s : Pos) : Prop := ∀ p, isOpen m p → Reach m s p

/-- Opening a cell that is the root, already open, or adjacent to an open
cell preserves global reachability from the root. -/
theorem allReach_setCell {m : Grid} {s : Pos} {x y : ℤ} {c : Char}
    (hc : c ≠ 'W')
    (hcond : (x, y) = s ∨ isOpen m (x, y) ∨ ∃ q, isOpen m q ∧ Adj q (x, y))
    (h : AllReach m s) : AllReach (setCell m x y c) s := by
  intro p hp
  have hmono : ∀ r, isOpen m r → isOpen (setCell m x y c) r :=
    fun r hr => isOpen_setCell_of_isOpen hc hr
  rcases isOpen_setCell_elim hp with hold | hnew
  · exact (h p hold).mono hmono
  · subst hnew
    rcases hcond with hs | hopen | ⟨q, hq, hadj⟩
    · rw [← hs]
      exact Reach.refl _ hp
    · exact (h _ hopen).mono hmono
    · exact Reach.tail ((h q hq).mono hmono) hadj hp

/-! ### Change tracking -/

/-- Between two stages of maze generation, cells change only by becoming
open path cells strictly inside the border. -/
def Evol (size : ℕ) (m m' : Grid) : Prop :=
  ∀ x y : ℤ, getCell m' x y ≠ getCell m x y →
    getCell m' x y = ' ' ∧ Inner size (x, y)

theorem evol_refl (size : ℕ) (m : Grid) : Evol size m m :=
  fun _ _ h => absurd rfl h

theorem evol_trans {size : ℕ} {m1 m2 m3 : Grid} (h1 : Evol size m1 m2)
    (h2 : Evol size m2 m3) : Evol size m1 m3 := by
  intro x y h
  by_cases h23 : getCell m3 x y = getCell m2 x y
  · rw [h23] at h ⊢
    exact h1 x y h
  · exact h2 x y h23

theorem Evol.isOpen_mono {size : ℕ} {m m' : Grid} (h : Evol size m m')
    {p : Pos} (hp : isOpen m p) : isOpen m' p := by
  by_cases hch : getCell m' p.1 p.2 = getCell m p.1 p.2
  · unfold isOpen at *
    rw [hch]
    exact hp
  · obtain ⟨hval, _⟩ := h p.1 p.2 hch
    unfold isOpen
    rw [hval]
    decide

theorem evol_setCell {size : ℕ} (m : Grid) {x y : ℤ}
    (hin : Inner size (x, y)) : Evol size m (setCell m x y ' ') := by
  intro a b hab
  rcases getCell_setCell_cases m x y a b ' ' with heq | ⟨heq, hval⟩
  · exact absurd heq hab
  · rw [Prod.mk.injEq] at heq
    obtain ⟨ha, hb⟩ := heq
    subst ha; subst hb
    exact ⟨hval, hin⟩

/-! ### Wall counting (for fuel sufficiency) -/

def wallCount (m : Grid) : ℕ := (m.map (List.countP (fun c => c == 'W'))).sum

theorem countP_set_le {α : Type} (p : α → Bool) (a : α) (ha : p a = false) :
    ∀ (l : List α) (i : ℕ), (l.set i a).countP p ≤ l.countP p
  | [], _ => Nat.le.refl
  | x :: xs, 0 => by
    simp [List.set, List.countP_cons, ha]
  | x :: xs, i + 1 => by
    simp only [List.set, List.countP_cons]
    have := countP_set_le p a ha xs i
    omega

theorem countP_set_lt {α : Type} (p : α → Bool) (a d : α) (ha : p a = false) :
    ∀ (l : List α) (i : ℕ), i < l.length → p (l.getD i d) = true →
      (l.set i a).countP p < l.countP p
  | [], _, h, _ => absurd h (by simp)
  | x :: xs, 0, _, hold => by
    simp only [List.getD_cons_zero] at hold
    simp [List.set, List.countP_cons, ha, hold]
  | x :: xs, i + 1, hi, hold => by
    simp only [List.getD_cons_succ] at hold
    simp only [List.set, List.countP_cons]
    have := countP_set_lt p a d ha xs i (by simpa using hi) hold
    omega

theorem nat_sum_set_le : ∀ (l : List ℕ) (i : ℕ) (b : ℕ), b ≤ l.getD i 0 →
    (l.set i b).sum ≤ l.sum
  | [], _, _, _ => Nat.le.refl
  | x :: xs, 0, b, hb => by
    simp only [List.getD_cons_zero] at hb
    simp only [List.set, List.sum_cons]
    omega
  | x :: xs, i + 1, b, hb => by
    simp only [List.getD_cons_succ] at hb
    simp only [List.set, List.sum_cons]
    have := nat_sum_set_le xs i b hb
    omega

theorem nat_sum_set_lt : ∀ (l : List ℕ) (i : ℕ) (b : ℕ), i < l.length →
    b < l.getD i 0 → (l.set i b).sum < l.sum
  | [], _, _, h, _ => absurd h (by simp)
  | x :: xs, 0, b, _, hb => by
    simp only [List.getD_cons_zero] at hb
    simp only [List.set, List.sum_cons]
    omega
  | x :: xs, i + 1, b, hi, hb => by
    simp only [List.getD_cons_succ] at hb
    simp only [List.set, List.sum_cons]
    have := nat_sum_set_lt xs i b (by simpa using hi) hb
    omega

theorem getD_map {α β : Type} (f : α → β) (l : List α) (i : ℕ) (d : α) :
    (l.map f).getD i (f d) = f (l.getD i d) := by
  simp only [List.getD_eq_getElem?_getD, List.getElem?_map]
  cases l[i]? <;> rfl

theorem wallCount_setCell_le (m : Grid) (x y : ℤ) {c : Char} (hc : c ≠ 'W') :
    wallCount (setCell m x y c) ≤ wallCount m := by
  unfold setCell
  split
  · unfold wallCount
    rw [List.map_set]
    apply nat_sum_set_le
    have hd : (0 : ℕ) = List.countP (fun c => c == 'W') ([] : List Char) := rfl
    rw [hd, getD_map]
    exact countP_set_le _ c (by simpa using hc) _ _
  · exact Nat.le.refl

theorem wallCount_setCell_lt (m : Grid) {x y : ℤ} {c : Char} (hc : c ≠ 'W')
    (hx : 0 ≤ x) (hy : 0 ≤ y) (hyl : y.toNat < m.length)
    (hxl : x.toNat < (m.getD y.toNat []).length)
    (hW : getCell m x y = 'W') :
    wallCount (setCell m x y c) < wallCount m := by
  unfold setCell
  rw [if_pos ⟨hx, hy⟩]
  unfold wallCount
  rw [List.map_set]
  apply nat_sum_set_lt _ _ _ (by simpa using hyl)
  have hd : (0 : ℕ) = List.countP (fun c => c == 'W') ([] : List Char) := rfl
  rw [hd, getD_map]
  apply countP_set_lt _ c 'W' (by simpa using hc) _ _ hxl
  unfold getCell at hW
  rw [if_pos ⟨hx, hy⟩] at hW
  simpa [List.getD_eq_getElem?_getD] using hW

end Maze

namespace Maze

/-! ### The direction shuffle is a permutation -/

theorem shuffleDirs_perm (rng : Rng) : ((shuffleDirs rng).1).Perm carveDirs := by
  obtain ⟨t, i⟩ := rng
  show (listSwap (listSwap (listSwap carveDirs 3 (t i % 4)) 2 (t (i + 1) % 3)) 1
      (t (i + 2) % 2)).Perm carveDirs
  have h3 : t i % 4 = 0 ∨ t i % 4 = 1 ∨ t i % 4 = 2 ∨ t i % 4 = 3 := by omega
  have h2 : t (i + 1) % 3 = 0 ∨ t (i + 1) % 3 = 1 ∨ t (i + 1) % 3 = 2 := by omega
  have h1 : t (i + 2) % 2 = 0 ∨ t (i + 2) % 2 = 1 := by omega
  rcases h3 with h3 | h3 | h3 | h3 <;> rw [h3] <;>
    rcases h2 with h2 | h2 | h2 <;> rw [h2] <;>
    rcases h1 with h1 | h1 <;> rw [h1] <;> decide

theorem mem_carveDirs_elim {d : ℤ × ℤ} (h : d ∈ carveDirs) :
    d = (0, -2) ∨ d = (0, 2) ∨ d = (-2, 0) ∨ d = (2, 0) := by
  simpa [carveDirs] using h

/-- The coordinates of the cell between a lattice cell and its step-2
neighbour (`(nx - dx/2, ny - dy/2)` in the source). -/
theorem carve_wall_coords {d : ℤ × ℤ} (h : d ∈ carveDirs) (cx cy : ℤ) :
    (cx + d.1 - d.1 / 2, cy + d.2 - d.2 / 2) = (cx + d.1 / 2, cy + d.2 / 2) := by
  rcases mem_carveDirs_elim h with h | h | h | h <;> subst h <;>
    rw [Prod.mk.injEq] <;> norm_num <;> omega

end Maze

namespace Maze

/-! ### Carver invariants -/

/-- Step-2 neighbour relation used by the carving lattice. -/
def StepNbr (p q : Pos) : Prop := ∃ d ∈ carveDirs, q = (p.1 + d.1, p.2 + d.2)

/-- Any lattice cell that a carving segment turned from wall to open has all
its strictly-inside step-2 neighbours open once the segment finishes (the
depth-first search examines all four directions of every cell it visits). -/
def StepCL (size : ℕ) (m m' : Grid) : Prop :=
  ∀ p, LatticePos size p → getCell m p.1 p.2 = 'W' → isOpen m' p →
    ∀ q, StepNbr p q → Inner size q → isOpen m' q

theorem stepCL_trans {size : ℕ} {m1 m2 m3 : Grid} (h12 : StepCL size m1 m2)
    (h23 : StepCL size m2 m3) (e23 : Evol size m2 m3) : StepCL size m1 m3 := by
  intro p hp hW hopen q hq hin
  by_cases h2 : getCell m2 p.1 p.2 = 'W'
  · exact h23 p hp h2 hopen q hq hin
  · exact e23.isOpen_mono (h12 p hp hW h2 q hq hin)

theorem Evol.getCell_space {size : ℕ} {m m' : Grid} (h : Evol size m m')
    {x y : ℤ} (hm : getCell m x y = ' ') : getCell m' x y = ' ' := by
  by_cases hch : getCell m' x y = getCell m x y
  · rw [hch, hm]
  · exact (h x y hch).1

/-- Postcondition bundle of a full carver invocation at `(cx, cy)`. -/
structure CarveOut (size : ℕ) (m : Grid) (cx cy : ℤ) (m' : Grid) : Prop where
  rect : Rect m' size
  evol : Evol size m m'
  wc : wallCount m' ≤ wallCount m
  opened : getCell m' cx cy = ' '
  cl : StepCL size m m'
  reach : ∀ s, AllReach m s →
    ((cx, cy) = s ∨ ∃ q, isOpen m q ∧ Adj q (cx, cy)) → AllReach m' s

/-- Postcondition bundle of one direction attempt at `(cx, cy)`. -/
structure StepOut (size : ℕ) (m : Grid) (cx cy dx dy : ℤ) (m' : Grid) : Prop where
  rect : Rect m' size
  evol : Evol size m m'
  wc : wallCount m' ≤ wallCount m
  cl : StepCL size m m'
  reach : ∀ s, AllReach m s → AllReach m' s
  handled : Inner size (cx + dx, cy + dy) → isOpen m' (cx + dx, cy + dy)

theorem carveStep_eq (next : Grid → ℤ → ℤ → Rng → Grid × Rng) (size : ℕ)
    (cx cy dx dy : ℤ) (m : Grid) (rng : Rng) :
    carveStep next size cx cy dx dy m rng =
      if 0 < cy + dy ∧ cy + dy < (size : ℤ) - 1 ∧ 0 < cx + dx ∧
          cx + dx < (size : ℤ) - 1 ∧ getCell m (cx + dx) (cy + dy) = 'W' then
        next (setCell m (cx + dx - dx / 2) (cy + dy - dy / 2) ' ') (cx + dx)
          (cy + dy) rng
      else (m, rng) := rfl

theorem carveStep_spec {fuel size : ℕ} {cx cy dx dy : ℤ} {m : Grid} {rng : Rng}
    (IH : ∀ (m' : Grid) (cx' cy' : ℤ) (rng' : Rng), Rect m' size →
      LatticePos size (cx', cy') → getCell m' cx' cy' = 'W' →
      wallCount m' < fuel →
      CarveOut size m' cx' cy' (carve fuel size m' cx' cy' rng').1)
    (hrect : Rect m size)
    (hlat : LatticePos size (cx, cy)) (hd : (dx, dy) ∈ carveDirs)
    (hopen : getCell m cx cy = ' ') (hwc : wallCount m < fuel) :
    StepOut size m cx cy dx dy
      (carveStep (carve fuel size) size cx cy dx dy m rng).1 := by
  have hfacts : (dx = 0 ∧ (dy = -2 ∨ dy = 2)) ∨ (dy = 0 ∧ (dx = -2 ∨ dx = 2)) := by
    rcases mem_carveDirs_elim hd with h | h | h | h <;>
      (rw [Prod.mk.injEq] at h; omega)
  have hcx0 : 0 < cx := hlat.1.1
  have hcxs : cx < (size : ℤ) - 1 := hlat.1.2.1
  have hcy0 : 0 < cy := hlat.1.2.2.1
  have hcys : cy < (size : ℤ) - 1 := hlat.1.2.2.2
  have hcxodd : cx % 2 = 1 := hlat.2.1
  have hcyodd : cy % 2 = 1 := hlat.2.2
  rw [carveStep_eq]
  by_cases hguard : 0 < cy + dy ∧ cy + dy < (size : ℤ) - 1 ∧ 0 < cx + dx ∧
      cx + dx < (size : ℤ) - 1 ∧ getCell m (cx + dx) (cy + dy) = 'W'
  · rw [if_pos hguard]
    obtain ⟨hg1, hg2, hg3, hg4, hgW⟩ := hguard
    have hwx : cx + dx - dx / 2 = cx + dx / 2 := by omega
    have hwy : cy + dy - dy / 2 = cy + dy / 2 := by omega
    rw [hwx, hwy]
    have hwin : Inner size (cx + dx / 2, cy + dy / 2) := by
      refine ⟨by omega, by omega, by omega, by omega⟩
    have hrectW : Rect (setCell m (cx + dx / 2) (cy + dy / 2) ' ') size :=
      rect_setCell hrect _ _ _
    have hWspace : getCell (setCell m (cx + dx / 2) (cy + dy / 2) ' ')
        (cx + dx / 2) (cy + dy / 2) = ' ' :=
      getCell_setCell_self_rect hrect _ (by omega) (by omega) (by omega) (by omega)
    have hne_wn : ((cx + dx : ℤ), (cy + dy : ℤ)) ≠ (cx + dx / 2, cy + dy / 2) := by
      intro hc
      rw [Prod.mk.injEq] at hc
      omega
    have hWn : getCell (setCell m (cx + dx / 2) (cy + dy / 2) ' ')
        (cx + dx) (cy + dy) = 'W' := by
      rw [getCell_setCell_ne _ _ hne_wn]; exact hgW
    have hlatn : LatticePos size (cx + dx, cy + dy) :=
      ⟨⟨hg3, hg4, hg1, hg2⟩, by omega, by omega⟩
    have hwcW : wallCount (setCell m (cx + dx / 2) (cy + dy / 2) ' ') ≤
        wallCount m := wallCount_setCell_le _ _ _ (by decide)
    have CO := IH _ (cx + dx) (cy + dy) rng hrectW hlatn hWn
      (lt_of_le_of_lt hwcW hwc)
    have hAdj_cw : Adj (cx, cy) (cx + dx / 2, cy + dy / 2) := by
      unfold Adj; dsimp only; omega
    have hAdj_wn : Adj (cx + dx / 2, cy + dy / 2) ((cx + dx : ℤ), (cy + dy : ℤ)) := by
      unfold Adj; dsimp only; omega
    refine ⟨CO.rect, evol_trans (evol_setCell m hwin) CO.evol,
      le_trans CO.wc hwcW, ?_, ?_, ?_⟩
    · intro p hp hpW hpOpen q hq hin
      have hpneW : (p.1, p.2) ≠ (cx + dx / 2, cy + dy / 2) := by
        obtain ⟨_, hp1, hp2⟩ := hp
        intro hc
        rw [Prod.mk.injEq] at hc
        omega
      have hpW2 : getCell (setCell m (cx + dx / 2) (cy + dy / 2) ' ') p.1 p.2 = 'W' := by
        rw [getCell_setCell_ne _ _ hpneW]; exact hpW
      exact CO.cl p hp hpW2 hpOpen q hq hin
    · intro s hAll
      have hAllW : AllReach (setCell m (cx + dx / 2) (cy + dy / 2) ' ') s :=
        allReach_setCell (by decide)
          (Or.inr (Or.inr ⟨(cx, cy), by unfold isOpen; rw [hopen]; decide, hAdj_cw⟩))
          hAll
      exact CO.reach s hAllW
        (Or.inr ⟨(cx + dx / 2, cy + dy / 2),
          by unfold isOpen; dsimp only; rw [hWspace]; decide, hAdj_wn⟩)
    · intro _
      unfold isOpen
      dsimp only
      rw [CO.opened]
      decide
  · rw [if_neg hguard]
    refine ⟨hrect, evol_refl _ _, le_refl _, ?_, fun _ h => h, ?_⟩
    · intro p _ hpW hpOpen _ _ _
      exact absurd hpW hpOpen
    · intro hin hWn
      obtain ⟨hi1, hi2, hi3, hi4⟩ := hin
      exact hguard ⟨hi3, hi4, hi1, hi2, hWn⟩

end Maze

namespace Maze

/-- Postcondition bundle of folding the carver over a list of directions. -/
structure FoldOut (size : ℕ) (cx cy : ℤ) (ds : List (ℤ × ℤ)) (m : Grid)
    (m' : Grid) : Prop where
  rect : Rect m' size
  evol : Evol size m m'
  wc : wallCount m' ≤ wallCount m
  cl : StepCL size m m'
  reach : ∀ s, AllReach m s → AllReach m' s
  handled : ∀ d ∈ ds, Inner size (cx + d.1, cy + d.2) →
    isOpen m' (cx + d.1, cy + d.2)

theorem carveFold_spec {fuel size : ℕ} {cx cy : ℤ}
    (IH : ∀ (m' : Grid) (cx' cy' : ℤ) (rng' : Rng), Rect m' size →
      LatticePos size (cx', cy') → getCell m' cx' cy' = 'W' →
      wallCount m' < fuel →
      CarveOut size m' cx' cy' (carve fuel size m' cx' cy' rng').1)
    (hlat : LatticePos size (cx, cy)) :
    ∀ (ds : List (ℤ × ℤ)), (∀ d ∈ ds, d ∈ carveDirs) →
      ∀ (m : Grid) (rng : Rng), Rect m size → getCell m cx cy = ' ' →
        wallCount m < fuel →
        FoldOut size cx cy ds m
          (ds.foldl (fun acc d =>
            carveStep (carve fuel size) size cx cy d.1 d.2 acc.1 acc.2)
            (m, rng)).1 := by
  intro ds
  induction ds with
  | nil =>
    intro _ m rng hrect hc hwc
    exact ⟨hrect, evol_refl _ _, le_refl _,
      fun p _ hpW hpOpen _ _ _ => absurd hpW hpOpen,
      fun _ h => h, by simp⟩
  | cons d rest ihds =>
    intro hds m rng hrect hc hwc
    rw [List.foldl_cons]
    have step := @carveStep_spec fuel size cx cy d.1 d.2 m rng IH hrect hlat
      (hds d (List.mem_cons_self d rest)) hc hwc
    have hrect1 := step.rect
    have hc1 : getCell
        (carveStep (carve fuel size) size cx cy d.1 d.2 m rng).1 cx cy = ' ' :=
      step.evol.getCell_space hc
    have hwc1 : wallCount
        (carveStep (carve fuel size) size cx cy d.1 d.2 m rng).1 < fuel :=
      lt_of_le_of_lt step.wc hwc
    have F := ihds (fun e he => hds e (List.mem_cons_of_mem d he))
      (carveStep (carve fuel size) size cx cy d.1 d.2 m rng).1
      (carveStep (carve fuel size) size cx cy d.1 d.2 m rng).2
      hrect1 hc1 hwc1
    refine ⟨F.rect, evol_trans step.evol F.evol, le_trans F.wc step.wc,
      stepCL_trans step.cl F.cl F.evol, fun s h => F.reach s (step.reach s h), ?_⟩
    intro e he hin
    rcases List.mem_cons.mp he with he | he
    · subst he
      exact F.evol.isOpen_mono (step.handled hin)
    · exact F.handled e he hin

theorem carve_succ (fuel size : ℕ) (m : Grid) (cx cy : ℤ) (rng : Rng) :
    carve (fuel + 1) size m cx cy rng =
      ((shuffleDirs rng).1).foldl
        (fun acc d =>
          carveStep (carve fuel size) size cx cy d.1 d.2 acc.1 acc.2)
        (setCell m cx cy ' ', (shuffleDirs rng).2) := rfl

theorem carve_spec : ∀ (fuel size : ℕ) (m : Grid) (cx cy : ℤ) (rng : Rng),
    Rect m size → LatticePos size (cx, cy) →
    getCell m cx cy = 'W' → wallCount m < fuel →
    CarveOut size m cx cy (carve fuel size m cx cy rng).1 := by
  intro fuel
  induction fuel with
  | zero =>
    intro _ _ _ _ _ _ _ _ hwc
    omega
  | succ fuel IHf =>
    intro size m cx cy rng hrect hlat hW hwc
    have IH : ∀ (m' : Grid) (cx' cy' : ℤ) (rng' : Rng), Rect m' size →
        LatticePos size (cx', cy') → getCell m' cx' cy' = 'W' →
        wallCount m' < fuel →
        CarveOut size m' cx' cy' (carve fuel size m' cx' cy' rng').1 :=
      fun m' cx' cy' rng' h1 h2 h3 h4 => IHf size m' cx' cy' rng' h1 h2 h3 h4
    rw [carve_succ]
    have hcx0 : 0 < cx := hlat.1.1
    have hcxs : cx < (size : ℤ) - 1 := hlat.1.2.1
    have hcy0 : 0 < cy := hlat.1.2.2.1
    have hcys : cy < (size : ℤ) - 1 := hlat.1.2.2.2
    have hc1 : getCell (setCell m cx cy ' ') cx cy = ' ' :=
      getCell_setCell_self_rect hrect ' ' (by omega) (by omega) (by omega)
        (by omega)
    have hrect1 : Rect (setCell m cx cy ' ') size := rect_setCell hrect _ _ _
    have hwc1 : wallCount (setCell m cx cy ' ') < wallCount m := by
      apply wallCount_setCell_lt m (by decide) (by omega) (by omega)
      · rw [hrect.1]
        omega
      · rw [rect_row_length hrect (by omega)]
        omega
      · exact hW
    have hperm := shuffleDirs_perm rng
    have hds : ∀ d ∈ (shuffleDirs rng).1, d ∈ carveDirs :=
      fun d hd => hperm.mem_iff.mp hd
    have F := carveFold_spec IH hlat (shuffleDirs rng).1 hds
      (setCell m cx cy ' ') (shuffleDirs rng).2 hrect1 hc1 (by omega)
    have hEvol1 : Evol size m (setCell m cx cy ' ') := evol_setCell m hlat.1
    refine ⟨F.rect, evol_trans hEvol1 F.evol,
      le_trans F.wc (wallCount_setCell_le m cx cy (by decide)),
      F.evol.getCell_space hc1, ?_, ?_⟩
    · intro p hp hpW hpOpen q hq hin
      by_cases hpc : p = (cx, cy)
      · obtain ⟨d, hdmem, hqd⟩ := hq
        have hq2 : q = (cx + d.1, cy + d.2) := by rw [hqd, hpc]
        rw [hq2]
        exact F.handled d (hperm.mem_iff.mpr hdmem) (hq2 ▸ hin)
      · have hpW1 : getCell (setCell m cx cy ' ') p.1 p.2 = 'W' := by
          rw [getCell_setCell_ne _ _ (by simpa using hpc)]
          exact hpW
        exact F.cl p hp hpW1 hpOpen q hq hin
    · intro s hAll hcond
      have hAll1 : AllReach (setCell m cx cy ' ') s := by
        apply allReach_setCell (by decide) _ hAll
        rcases hcond with h | h
        · exact Or.inl h
        · exact Or.inr (Or.inr h)
      exact F.reach s hAll1

end Maze

namespace Maze

/-! ### Lattice completeness of the carver -/

theorem latticePos_mk {size : ℕ} {a b : ℤ} (h1 : 0 < a)
    (h2 : a < (size : ℤ) - 1) (h3 : 0 < b) (h4 : b < (size : ℤ) - 1)
    (h5 : a % 2 = 1) (h6 : b % 2 = 1) : LatticePos size (a, b) :=
  ⟨⟨h1, h2, h3, h4⟩, h5, h6⟩

theorem latticePos_elim {size : ℕ} {a b : ℤ} (h : LatticePos size (a, b)) :
    0 < a ∧ a < (size : ℤ) - 1 ∧ 0 < b ∧ b < (size : ℤ) - 1 ∧
      a % 2 = 1 ∧ b % 2 = 1 :=
  ⟨h.1.1, h.1.2.1, h.1.2.2.1, h.1.2.2.2, h.2.1, h.2.2⟩

theorem inner_mk {size : ℕ} {a b : ℤ} (h1 : 0 < a) (h2 : a < (size : ℤ) - 1)
    (h3 : 0 < b) (h4 : b < (size : ℤ) - 1) : Inner size (a, b) :=
  ⟨h1, h2, h3, h4⟩

/-- Starting from the all-wall grid, the finished carve leaves every cell of
the step-2 lattice open: the set of open lattice cells contains `(1, 1)` and
is closed under step-2 adjacency, and the lattice is connected. -/
theorem carved_lattice_open {size : ℕ} {m0 M : Grid}
    (hallW : ∀ x y, getCell m0 x y = 'W')
    (hCO : CarveOut size m0 1 1 M) :
    ∀ p : Pos, LatticePos size p → isOpen M p := by
  have main : ∀ (n : ℕ) (a b : ℤ), LatticePos size (a, b) → (a + b).toNat = n →
      isOpen M (a, b) := by
    intro n
    induction n using Nat.strong_induction_on with
    | _ n IH =>
      intro a b hp hn
      obtain ⟨hx0, hxs, hy0, hys, hxodd, hyodd⟩ := latticePos_elim hp
      by_cases hp11 : a = 1 ∧ b = 1
      · obtain ⟨ha, hb⟩ := hp11
        subst ha; subst hb
        unfold isOpen
        rw [hCO.opened]
        decide
      · have hcase : 3 ≤ a ∨ 3 ≤ b := by omega
        rcases hcase with hbig | hbig
        · have hqlat : LatticePos size (a - 2, b) :=
            latticePos_mk (by omega) (by omega) (by omega) (by omega)
              (by omega) (by omega)
          have hqopen : isOpen M (a - 2, b) :=
            IH (a - 2 + b).toNat (by omega) (a - 2) b hqlat rfl
          apply hCO.cl (a - 2, b) hqlat (hallW _ _) hqopen
          · refine ⟨(2, 0), by decide, ?_⟩
            show (a, b) = (a - 2 + 2, b + 0)
            rw [Prod.mk.injEq]
            constructor <;> omega
          · exact inner_mk hx0 hxs hy0 hys
        · have hqlat : LatticePos size (a, b - 2) :=
            latticePos_mk (by omega) (by omega) (by omega) (by omega)
              (by omega) (by omega)
          have hqopen : isOpen M (a, b - 2) :=
            IH (a + (b - 2)).toNat (by omega) a (b - 2) hqlat rfl
          apply hCO.cl (a, b - 2) hqlat (hallW _ _) hqopen
          · refine ⟨(0, 2), by decide, ?_⟩
            show (a, b) = (a + 0, b - 2 + 2)
            rw [Prod.mk.injEq]
            constructor <;> omega
          · exact inner_mk hx0 hxs hy0 hys
  intro p hp
  have hp' : LatticePos size (p.1, p.2) := hp
  exact main (p.1 + p.2).toNat p.1 p.2 hp' rfl

/-! ### The wall-removal pass -/

theorem removalStep_spec {size : ℕ} {m : Grid} (rng : Rng) (hrect : Rect m size)
    (hsize : 7 ≤ size) :
    Rect (removalStep size m rng).1 size ∧
    Evol size m (removalStep size m rng).1 ∧
    (∀ s, AllReach m s → AllReach (removalStep size m rng).1 s) := by
  obtain ⟨t, i⟩ := rng
  unfold removalStep Rng.next
  dsimp only
  have hmx : t i % (size - 2) < size - 2 := Nat.mod_lt _ (by omega)
  have hmy : t (i + 1) % (size - 2) < size - 2 := Nat.mod_lt _ (by omega)
  split
  · split
    · next hW hflank =>
      dsimp only
      have hInner : Inner size (((t i % (size - 2) : ℕ) : ℤ) + 1,
          ((t (i + 1) % (size - 2) : ℕ) : ℤ) + 1) :=
        inner_mk (by omega) (by omega) (by omega) (by omega)
      refine ⟨rect_setCell hrect _ _ _, evol_setCell m hInner, ?_⟩
      intro s hAll
      apply allReach_setCell (by decide) _ hAll
      rcases hflank with ⟨_, _, hleft, _⟩ | ⟨_, _, hup, _⟩
      · refine Or.inr (Or.inr ⟨(((t i % (size - 2) : ℕ) : ℤ) + 1 - 1,
          ((t (i + 1) % (size - 2) : ℕ) : ℤ) + 1), hleft, ?_⟩)
        unfold Adj
        dsimp only
        omega
      · refine Or.inr (Or.inr ⟨(((t i % (size - 2) : ℕ) : ℤ) + 1,
          ((t (i + 1) % (size - 2) : ℕ) : ℤ) + 1 - 1), hup, ?_⟩)
        unfold Adj
        dsimp only
        omega
    · dsimp only
      exact ⟨hrect, evol_refl _ _, fun _ h => h⟩
  · dsimp only
    exact ⟨hrect, evol_refl _ _, fun _ h => h⟩

theorem removalLoop_spec {size : ℕ} (hsize : 7 ≤ size) :
    ∀ (n : ℕ) (m : Grid) (rng : Rng), Rect m size →
      Rect (removalLoop n size m rng).1 size ∧
      Evol size m (removalLoop n size m rng).1 ∧
      (∀ s, AllReach m s → AllReach (removalLoop n size m rng).1 s) := by
  intro n
  induction n with
  | zero => exact fun m rng hrect => ⟨hrect, evol_refl _ _, fun _ h => h⟩
  | succ n ihn =>
    intro m rng hrect
    obtain ⟨hr1, he1, ha1⟩ := removalStep_spec rng hrect hsize
    obtain ⟨hr2, he2, ha2⟩ :=
      ihn (removalStep size m rng).1 (removalStep size m rng).2 hr1
    exact ⟨hr2, evol_trans he1 he2, fun s h => ha2 s (ha1 s h)⟩

end Maze

namespace Maze

/-! ### The generated maze -/

theorem mazeSize_facts {level : ℕ} (h : 1 ≤ level) :
    7 ≤ mazeSize level ∧ mazeSize level % 2 = 1 ∧
      mazeSize level = 7 + 2 * (min level 30 - 1) := by
  unfold mazeSize
  omega

theorem countP_replicate {α : Type} (p : α → Bool) (a : α) :
    ∀ n : ℕ, (List.replicate n a).countP p = if p a then n else 0 := by
  intro n
  induction n with
  | zero => simp
  | succ n ih =>
    rw [List.replicate_succ, List.countP_cons, ih]
    split <;> simp_all

theorem wallCount_replicate (n : ℕ) :
    wallCount (List.replicate n (List.replicate n 'W')) = n * n := by
  unfold wallCount
  rw [List.map_replicate, countP_replicate _ _ n]
  norm_num

/-- Everything `generateMaze` guarantees: shape, forced Start and Exit, all
lattice cells open, walls on the border, only `W`/space elsewhere, and every
open cell reachable from `(1, 1)`. -/
structure GenOut (level : ℕ) (M : Grid) : Prop where
  rect : Rect M (mazeSize level)
  latOpen : ∀ p, LatticePos (mazeSize level) p → isOpen M p
  border : ∀ x y, ¬ Inner (mazeSize level) (x, y) → getCell M x y = 'W'
  sCell : getCell M 1 1 = 'S'
  eCell : getCell M ((mazeSize level : ℤ) - 2) ((mazeSize level : ℤ) - 2) = 'E'
  cells : ∀ x y, (x, y) ≠ (1, 1) →
    (x, y) ≠ ((mazeSize level : ℤ) - 2, (mazeSize level : ℤ) - 2) →
    getCell M x y = 'W' ∨ getCell M x y = ' '
  reach : AllReach M (1, 1)

theorem generateMaze_eq (level : ℕ) (rng : Rng) :
    generateMaze level rng =
      (setCell
        (setCell
          (removalLoop (mazeSize level * level / 5) (mazeSize level)
            (carve (mazeSize level * mazeSize level + 1) (mazeSize level)
              (List.replicate (mazeSize level)
                (List.replicate (mazeSize level) 'W')) 1 1 rng).1
            (carve (mazeSize level * mazeSize level + 1) (mazeSize level)
              (List.replicate (mazeSize level)
                (List.replicate (mazeSize level) 'W')) 1 1 rng).2).1
          1 1 'S')
        ((mazeSize level : ℤ) - 2) ((mazeSize level : ℤ) - 2) 'E',
       (removalLoop (mazeSize level * level / 5) (mazeSize level)
          (carve (mazeSize level * mazeSize level + 1) (mazeSize level)
            (List.replicate (mazeSize level)
              (List.replicate (mazeSize level) 'W')) 1 1 rng).1
          (carve (mazeSize level * mazeSize level + 1) (mazeSize level)
            (List.replicate (mazeSize level)
              (List.replicate (mazeSize level) 'W')) 1 1 rng).2).2) := rfl

theorem generateMaze_spec (level : ℕ) (hlevel : 1 ≤ level) (rng : Rng) :
    GenOut level (generateMaze level rng).1 := by
  obtain ⟨hsize, hodd, _⟩ := mazeSize_facts hlevel
  rw [generateMaze_eq]
  dsimp only
  have hrect0 := rect_replicate (mazeSize level)
  have hallW : ∀ x y, getCell (List.replicate (mazeSize level)
      (List.replicate (mazeSize level) 'W')) x y = 'W' :=
    getCell_replicate (mazeSize level)
  have hlat11 : LatticePos (mazeSize level) (1, 1) :=
    latticePos_mk (by omega) (by omega) (by omega) (by omega) (by omega)
      (by omega)
  have CO := carve_spec (mazeSize level * mazeSize level + 1) (mazeSize level)
    _ 1 1 rng hrect0 hlat11 (hallW 1 1)
    (by rw [wallCount_replicate]; omega)
  have hlatM1 := carved_lattice_open hallW CO
  have hreachM1 : AllReach
      (carve (mazeSize level * mazeSize level + 1) (mazeSize level)
        (List.replicate (mazeSize level) (List.replicate (mazeSize level) 'W'))
        1 1 rng).1 (1, 1) := by
    apply CO.reach (1, 1) _ (Or.inl rfl)
    intro p hp
    exact absurd (hallW p.1 p.2) hp
  obtain ⟨hrect2, hevol2, hreach2⟩ := removalLoop_spec hsize
    (mazeSize level * level / 5) _
    (carve (mazeSize level * mazeSize level + 1) (mazeSize level)
      (List.replicate (mazeSize level) (List.replicate (mazeSize level) 'W'))
      1 1 rng).2 CO.rect
  have hEvolFull : Evol (mazeSize level)
      (List.replicate (mazeSize level) (List.replicate (mazeSize level) 'W'))
      (removalLoop (mazeSize level * level / 5) (mazeSize level)
        (carve (mazeSize level * mazeSize level + 1) (mazeSize level)
          (List.replicate (mazeSize level)
            (List.replicate (mazeSize level) 'W')) 1 1 rng).1
        (carve (mazeSize level * mazeSize level + 1) (mazeSize level)
          (List.replicate (mazeSize level)
            (List.replicate (mazeSize level) 'W')) 1 1 rng).2).1 :=
    evol_trans CO.evol hevol2
  have hlatM2 : ∀ p, LatticePos (mazeSize level) p →
      isOpen (removalLoop (mazeSize level * level / 5) (mazeSize level)
        (carve (mazeSize level * mazeSize level + 1) (mazeSize level)
          (List.replicate (mazeSize level)
            (List.replicate (mazeSize level) 'W')) 1 1 rng).1
        (carve (mazeSize level * mazeSize level + 1) (mazeSize level)
          (List.replicate (mazeSize level)
            (List.replicate (mazeSize level) 'W')) 1 1 rng).2).1 p :=
    fun p hp => hevol2.isOpen_mono (hlatM1 p hp)
  have hexitlat : LatticePos (mazeSize level)
      ((mazeSize level : ℤ) - 2, (mazeSize level : ℤ) - 2) :=
    latticePos_mk (by omega) (by omega) (by omega) (by omega) (by omega)
      (by omega)
  have hne_es : ((1 : ℤ), (1 : ℤ)) ≠
      ((mazeSize level : ℤ) - 2, (mazeSize level : ℤ) - 2) := by
    intro hc
    rw [Prod.mk.injEq] at hc
    omega
  have hrect3 : Rect (setCell
      (removalLoop (mazeSize level * level / 5) (mazeSize level)
        (carve (mazeSize level * mazeSize level + 1) (mazeSize level)
          (List.replicate (mazeSize level)
            (List.replicate (mazeSize level) 'W')) 1 1 rng).1
        (carve (mazeSize level * mazeSize level + 1) (mazeSize level)
          (List.replicate (mazeSize level)
            (List.replicate (mazeSize level) 'W')) 1 1 rng).2).1
      1 1 'S') (mazeSize level) := rect_setCell hrect2 _ _ _
  refine ⟨rect_setCell hrect3 _ _ _, ?_, ?_, ?_, ?_, ?_, ?_⟩
  · intro p hp
    apply isOpen_setCell_of_isOpen (by decide)
    apply isOpen_setCell_of_isOpen (by decide)
    exact hlatM2 p hp
  · intro x y hnin
    have h1 : (x, y) ≠ ((mazeSize level : ℤ) - 2, (mazeSize level : ℤ) - 2) := by
      intro hc
      exact hnin (hc ▸ hexitlat.1)
    have h2 : (x, y) ≠ ((1 : ℤ), (1 : ℤ)) := by
      intro hc
      exact hnin (hc ▸ hlat11.1)
    rw [getCell_setCell_ne _ _ h1, getCell_setCell_ne _ _ h2]
    by_cases hch : getCell (removalLoop (mazeSize level * level / 5)
        (mazeSize level)
        (carve (mazeSize level * mazeSize level + 1) (mazeSize level)
          (List.replicate (mazeSize level)
            (List.replicate (mazeSize level) 'W')) 1 1 rng).1
        (carve (mazeSize level * mazeSize level + 1) (mazeSize level)
          (List.replicate (mazeSize level)
            (List.replicate (mazeSize level) 'W')) 1 1 rng).2).1 x y =
        getCell (List.replicate (mazeSize level)
          (List.replicate (mazeSize level) 'W')) x y
    · rw [hch]
      exact hallW x y
    · exact absurd (hEvolFull x y hch).2 hnin
  · rw [getCell_setCell_ne _ _ hne_es]
    exact getCell_setCell_self_rect hrect2 'S' (by omega) (by omega) (by omega)
      (by omega)
  · exact getCell_setCell_self_rect hrect3 'E' (by omega) (by omega) (by omega)
      (by omega)
  · intro x y hne1 hne2
    rw [getCell_setCell_ne _ _ hne2, getCell_setCell_ne _ _ hne1]
    by_cases hch : getCell (removalLoop (mazeSize level * level / 5)
        (mazeSize level)
        (carve (mazeSize level * mazeSize level + 1) (mazeSize level)
          (List.replicate (mazeSize level)
            (List.replicate (mazeSize level) 'W')) 1 1 rng).1
        (carve (mazeSize level * mazeSize level + 1) (mazeSize level)
          (List.replicate (mazeSize level)
            (List.replicate (mazeSize level) 'W')) 1 1 rng).2).1 x y =
        getCell (List.replicate (mazeSize level)
          (List.replicate (mazeSize level) 'W')) x y
    · rw [hch]
      exact Or.inl (hallW x y)
    · exact Or.inr (hEvolFull x y hch).1
  · have hAll2 : AllReach (removalLoop (mazeSize level * level / 5)
        (mazeSize level)
        (carve (mazeSize level * mazeSize level + 1) (mazeSize level)
          (List.replicate (mazeSize level)
            (List.replicate (mazeSize level) 'W')) 1 1 rng).1
        (carve (mazeSize level * mazeSize level + 1) (mazeSize level)
          (List.replicate (mazeSize level)
            (List.replicate (mazeSize level) 'W')) 1 1 rng).2).1 (1, 1) :=
      hreach2 (1, 1) hreachM1
    have hAll3 := allReach_setCell (show ('S' : Char) ≠ 'W' by decide)
      (Or.inr (Or.inl (hlatM2 (1, 1) hlat11))) hAll2
    apply allReach_setCell (show ('E' : Char) ≠ 'W' by decide) _ hAll3
    refine Or.inr (Or.inl ?_)
    apply isOpen_setCell_of_isOpen (by decide)
    exact hlatM2 _ hexitlat

end Maze

namespace Maze

/-! ### Monotonicity of the removal pass -/

theorem removalStep_eq (size : ℕ) (m : Grid) (t : ℕ → ℕ) (i : ℕ) :
    removalStep size m ⟨t, i⟩ =
      if getCell m (((t i % (size - 2) : ℕ) : ℤ) + 1)
          (((t (i + 1) % (size - 2) : ℕ) : ℤ) + 1) = 'W' then
        if (0 < ((t i % (size - 2) : ℕ) : ℤ) + 1 ∧
            ((t i % (size - 2) : ℕ) : ℤ) + 1 < (size : ℤ) - 1 ∧
            getCell m (((t i % (size - 2) : ℕ) : ℤ) + 1 - 1)
              (((t (i + 1) % (size - 2) : ℕ) : ℤ) + 1) ≠ 'W' ∧
            getCell m (((t i % (size - 2) : ℕ) : ℤ) + 1 + 1)
              (((t (i + 1) % (size - 2) : ℕ) : ℤ) + 1) ≠ 'W') ∨
           (0 < ((t (i + 1) % (size - 2) : ℕ) : ℤ) + 1 ∧
            ((t (i + 1) % (size - 2) : ℕ) : ℤ) + 1 < (size : ℤ) - 1 ∧
            getCell m (((t i % (size - 2) : ℕ) : ℤ) + 1)
              (((t (i + 1) % (size - 2) : ℕ) : ℤ) + 1 - 1) ≠ 'W' ∧
            getCell m (((t i % (size - 2) : ℕ) : ℤ) + 1)
              (((t (i + 1) % (size - 2) : ℕ) : ℤ) + 1 + 1) ≠ 'W') then
          (setCell m (((t i % (size - 2) : ℕ) : ℤ) + 1)
            (((t (i + 1) % (size - 2) : ℕ) : ℤ) + 1) ' ', ⟨t, i + 1 + 1⟩)
        else (m, ⟨t, i + 1 + 1⟩)
      else (m, ⟨t, i + 1 + 1⟩) := rfl

theorem removalStep_isOpen_mono {size : ℕ} {m : Grid} (rng : Rng) {p : Pos}
    (h : isOpen m p) : isOpen (removalStep size m rng).1 p := by
  obtain ⟨t, i⟩ := rng
  rw [removalStep_eq]
  split
  · split
    · dsimp only
      exact isOpen_setCell_of_isOpen (by decide) h
    · exact h
  · exact h

theorem removalLoop_isOpen_mono :
    ∀ (n size : ℕ) (m : Grid) (rng : Rng) (p : Pos), isOpen m p →
      isOpen (removalLoop n size m rng).1 p := by
  intro n
  induction n with
  | zero => exact fun _ _ _ _ h => h
  | succ n ihn =>
    intro size m rng p h
    exact ihn size (removalStep size m rng).1 (removalStep size m rng).2 p
      (removalStep_isOpen_mono rng h)

theorem removalStep_changes {size : ℕ} {m : Grid} (rng : Rng) (x y : ℤ)
    (hch : getCell (removalStep size m rng).1 x y ≠ getCell m x y) :
    getCell m x y = 'W' ∧ getCell (removalStep size m rng).1 x y = ' ' ∧
      ((getCell m (x - 1) y ≠ 'W' ∧ getCell m (x + 1) y ≠ 'W') ∨
       (getCell m x (y - 1) ≠ 'W' ∧ getCell m x (y + 1) ≠ 'W')) := by
  obtain ⟨t, i⟩ := rng
  rw [removalStep_eq] at hch ⊢
  split at hch
  · next hW =>
    rw [if_pos hW]
    split at hch
    · next hflank =>
      rw [if_pos hflank]
      dsimp only at hch ⊢
      rcases getCell_setCell_cases m (((t i % (size - 2) : ℕ) : ℤ) + 1)
          (((t (i + 1) % (size - 2) : ℕ) : ℤ) + 1) x y ' ' with heq | ⟨hpos, hval⟩
      · exact absurd heq hch
      · rw [Prod.mk.injEq] at hpos
        obtain ⟨hx, hy⟩ := hpos
        subst hx; subst hy
        refine ⟨hW, hval, ?_⟩
        rcases hflank with ⟨_, _, h1, h2⟩ | ⟨_, _, h1, h2⟩
        · exact Or.inl ⟨h1, h2⟩
        · exact Or.inr ⟨h1, h2⟩
    · exact absurd rfl hch
  · exact absurd rfl hch

end Maze

namespace Maze

/-- A concrete all-zero random tape, used to instantiate theorems at a
specific random outcome. -/
def zeroRng : Rng := ⟨fun _ => 0, 0⟩

/-- C2: for every level ≥ 1 and every random outcome, the grid returned by
`generateMaze` contains a path of non-wall cells connecting the Start cell
`(1, 1)` to the Exit cell `(size − 2, size − 2)`; moreover a wall-removal
attempt only ever opens a wall cell flanked by two opposite already-open
cells, and the wall-removal pass never breaks reachability between any two
cells. -/
theorem C2_generated_connectivity :
    (∀ (level : ℕ), 1 ≤ level → ∀ (rng : Rng),
      Reach (generateMaze level rng).1 (1, 1)
        ((mazeSize level : ℤ) - 2, (mazeSize level : ℤ) - 2)) ∧
    (∀ (size : ℕ) (m : Grid) (rng : Rng) (x y : ℤ),
      getCell (removalStep size m rng).1 x y ≠ getCell m x y →
      getCell m x y = 'W' ∧ getCell (removalStep size m rng).1 x y = ' ' ∧
      ((getCell m (x - 1) y ≠ 'W' ∧ getCell m (x + 1) y ≠ 'W') ∨
       (getCell m x (y - 1) ≠ 'W' ∧ getCell m x (y + 1) ≠ 'W'))) ∧
    (∀ (n size : ℕ) (m : Grid) (rng : Rng) (p q : Pos),
      Reach m p q → Reach (removalLoop n size m rng).1 p q) := by
  refine ⟨?_, ?_, ?_⟩
  · intro level hlevel rng
    have G := generateMaze_spec level hlevel rng
    apply G.reach
    unfold isOpen
    dsimp only
    rw [G.eCell]
    decide
  · exact fun size m rng x y hch => removalStep_changes rng x y hch
  · intro n size m rng p q hReach
    exact hReach.mono (fun r hr => removalLoop_isOpen_mono n size m rng r hr)

/-- Witness for C2 at level 1 with the all-zero tape. -/
theorem C2_generated_connectivity_witness :
    Reach (generateMaze 1 zeroRng).1 (1, 1) (5, 5) :=
  C2_generated_connectivity.1 1 (by decide) zeroRng

/-- C8: for every level ≥ 1 and every random outcome, the grid returned by
`generateMaze` is square with side length exactly `7 + 2 × (min(level,30) − 1)`
(always odd, always ≥ 7), with the Start cell forced at `(1, 1)` and the
Exit cell forced at `(size − 2, size − 2)`. -/
theorem C8_maze_shape (level : ℕ) (rng : Rng) (hlevel : 1 ≤ level) :
    (generateMaze level rng).1.length = 7 + 2 * (min level 30 - 1) ∧
    (∀ row ∈ (generateMaze level rng).1,
      row.length = 7 + 2 * (min level 30 - 1)) ∧
    (7 + 2 * (min level 30 - 1)) % 2 = 1 ∧
    7 ≤ 7 + 2 * (min level 30 - 1) ∧
    getCell (generateMaze level rng).1 1 1 = 'S' ∧
    getCell (generateMaze level rng).1
      ((7 + 2 * (min level 30 - 1) - 2 : ℕ) : ℤ)
      ((7 + 2 * (min level 30 - 1) - 2 : ℕ) : ℤ) = 'E' := by
  obtain ⟨hsz, hodd, heq⟩ := mazeSize_facts hlevel
  have G := generateMaze_spec level hlevel rng
  have hcast : ((mazeSize level - 2 : ℕ) : ℤ) = (mazeSize level : ℤ) - 2 := by
    omega
  rw [← heq, hcast]
  exact ⟨G.rect.1, G.rect.2, hodd, hsz, G.sCell, G.eCell⟩

/-- Witness for C8 at level 1 with the all-zero tape. -/
theorem C8_maze_shape_witness :
    (generateMaze 1 zeroRng).1.length = 7 ∧
    getCell (generateMaze 1 zeroRng).1 1 1 = 'S' ∧
    getCell (generateMaze 1 zeroRng).1 5 5 = 'E' := by
  have H := C8_maze_shape 1 zeroRng (by decide)
  exact ⟨H.1, H.2.2.2.2.1, H.2.2.2.2.2⟩

end Maze

namespace Maze

/-! ### Maze regeneration (C1) -/

/-- The grid transformation performed by `regenerateMazeFromPlayerPosition`:
generate a fresh maze for the current level, clear the generated Start cell
back to path, force-clear the player's cell if it is a wall, and mark it as
the new Start. -/
def regenMaze (level : ℕ) (px py : ℤ) (rng : Rng) : Grid × Rng :=
  let (m, rng1) := generateMaze level rng
  let m1 := if getCell m 1 1 = 'S' then setCell m 1 1 ' ' else m
  let m2 := if getCell m1 px py = 'W' then setCell m1 px py ' ' else m1
  (setCell m2 px py 'S', rng1)

/-- A cell all four neighbours of which are walls is reachable from nowhere
else. -/
theorem no_reach_of_walled {m : Grid} {p s : Pos}
    (h1 : ¬ isOpen m (p.1 - 1, p.2)) (h2 : ¬ isOpen m (p.1 + 1, p.2))
    (h3 : ¬ isOpen m (p.1, p.2 - 1)) (h4 : ¬ isOpen m (p.1, p.2 + 1))
    (hne : s ≠ p) : ¬ Reach m s p := by
  intro hR
  cases hR with
  | refl _ => exact hne rfl
  | tail hpq hadj hr =>
    next q =>
      have hq := hpq.isOpen_dst
      have hsplit : q = (p.1 - 1, p.2) ∨ q = (p.1 + 1, p.2) ∨
          q = (p.1, p.2 - 1) ∨ q = (p.1, p.2 + 1) := by
        have hqe : (q.1, q.2) = q := rfl
        unfold Adj at hadj
        rcases hadj with ⟨ha, hb | hb⟩ | ⟨ha, hb | hb⟩
        · refine Or.inr (Or.inr (Or.inr ?_))
          rw [← hqe, Prod.mk.injEq]
          exact ⟨ha, by omega⟩
        · refine Or.inr (Or.inr (Or.inl ?_))
          rw [← hqe, Prod.mk.injEq]
          exact ⟨ha, by omega⟩
        · refine Or.inr (Or.inl ?_)
          rw [← hqe, Prod.mk.injEq]
          exact ⟨by omega, ha⟩
        · refine Or.inl ?_
          rw [← hqe, Prod.mk.injEq]
          exact ⟨by omega, ha⟩
      rcases hsplit with h | h | h | h <;> rw [h] at hq
      · exact h1 hq
      · exact h2 hq
      · exact h3 hq
      · exact h4 hq

/-- The explicit random tape for the C1 counterexample (maze regenerated at
level 3 with the player standing at `(4, 4)`), packed as base-4 digits of one
numeral: draw `i` of the tape is digit `i`. -/
def c1Num : ℕ := 580897564335754703346125326598924502918059330

/-- The C1 random source reading the packed tape. -/
def c1Rng : Rng := ⟨fun i => c1Num / 4 ^ i % 4, 0⟩

/-- The grid that `regenMaze 3 4 4 c1Rng` produces: the forced Start cell
`(4, 4)` is enclosed by walls on all four sides. -/
def c1Maze : Grid := [
  ['W', 'W', 'W', 'W', 'W', 'W', 'W', 'W', 'W', 'W', 'W'],
  ['W', ' ', 'W', ' ', ' ', ' ', 'W', ' ', ' ', ' ', 'W'],
  ['W', ' ', 'W', ' ', 'W', ' ', 'W', 'W', 'W', ' ', 'W'],
  ['W', ' ', ' ', ' ', 'W', ' ', ' ', ' ', ' ', ' ', 'W'],
  ['W', 'W', 'W', 'W', 'S', 'W', 'W', 'W', 'W', ' ', 'W'],
  ['W', ' ', ' ', ' ', 'W', ' ', ' ', ' ', 'W', ' ', 'W'],
  ['W', 'W', 'W', ' ', 'W', ' ', 'W', ' ', 'W', ' ', 'W'],
  ['W', ' ', ' ', ' ', 'W', ' ', 'W', ' ', 'W', ' ', 'W'],
  ['W', ' ', 'W', 'W', 'W', ' ', 'W', ' ', 'W', ' ', 'W'],
  ['W', ' ', ' ', ' ', ' ', ' ', 'W', ' ', ' ', 'E', 'W'],
  ['W', 'W', 'W', 'W', 'W', 'W', 'W', 'W', 'W', 'W', 'W']]

end Maze

namespace Maze

instance (size : ℕ) (p : Pos) : Decidable (Inner size p) := by
  unfold Inner; infer_instance

instance (size : ℕ) (p : Pos) : Decidable (LatticePos size p) := by
  unfold LatticePos Inner; infer_instance

theorem regenMaze_eq (level : ℕ) (px py : ℤ) (rng : Rng) :
    regenMaze level px py rng =
      (setCell
        (if getCell (if getCell (generateMaze level rng).1 1 1 = 'S' then
              setCell (generateMaze level rng).1 1 1 ' '
            else (generateMaze level rng).1) px py = 'W' then
          setCell (if getCell (generateMaze level rng).1 1 1 = 'S' then
              setCell (generateMaze level rng).1 1 1 ' '
            else (generateMaze level rng).1) px py ' '
        else (if getCell (generateMaze level rng).1 1 1 = 'S' then
            setCell (generateMaze level rng).1 1 1 ' '
          else (generateMaze level rng).1)) px py 'S',
       (generateMaze level rng).2) := rfl

set_option maxRecDepth 400000 in
/-- Counterexample to C1: at level 3, with an explicit random tape and the
player standing at `(4, 4)`, the maze regeneration produces a grid whose
forced Start cell (the player's current cell) is walled in on all four
sides, hence not reachable from the new Exit at `(size − 2, size − 2) =
(9, 9)`. -/
theorem C1_regen_unreachable_counterexample :
    getCell (regenMaze 3 4 4 c1Rng).1 4 4 = 'S' ∧
    getCell (regenMaze 3 4 4 c1Rng).1 9 9 = 'E' ∧
    ¬ Reach (regenMaze 3 4 4 c1Rng).1 (9, 9) (4, 4) := by
  have hM : (regenMaze 3 4 4 c1Rng).1 = c1Maze := by decide
  rw [hM]
  refine ⟨by decide, by decide, ?_⟩
  apply no_reach_of_walled (by decide) (by decide) (by decide) (by decide)
  decide

/-- C1 (amended): maze regeneration always forces the player's current cell
to be the new Start cell (never a wall), and whenever that cell is strictly
inside the border with at least one odd coordinate it is guaranteed
reachable from the new Exit (such a cell is a carving-lattice cell or
cardinally adjacent to one, and all lattice cells are carved open); the
counterexample shows the guarantee genuinely fails for inner cells with
both coordinates even. -/
theorem C1_regen_lattice_reachable (level : ℕ) (px py : ℤ) (rng : Rng)
    (hlevel : 1 ≤ level)
    (hinner : Inner (mazeSize level) (px, py))
    (hodd : px % 2 = 1 ∨ py % 2 = 1) :
    getCell (regenMaze level px py rng).1 px py = 'S' ∧
    Reach (regenMaze level px py rng).1
      ((mazeSize level : ℤ) - 2, (mazeSize level : ℤ) - 2) (px, py) := by
  obtain ⟨hsize, hszodd, _⟩ := mazeSize_facts hlevel
  have G := generateMaze_spec level hlevel rng
  rw [regenMaze_eq]
  dsimp only
  rw [if_pos G.sCell]
  set M1 := setCell (generateMaze level rng).1 1 1 ' ' with hM1
  set M2 := if getCell M1 px py = 'W' then setCell M1 px py ' ' else M1
    with hM2
  have hrect1 : Rect M1 (mazeSize level) := rect_setCell G.rect _ _ _
  have hrect2 : Rect M2 (mazeSize level) := by
    rw [hM2]
    split
    · exact rect_setCell hrect1 _ _ _
    · exact hrect1
  have hpx0 : 0 < px := hinner.1
  have hpxs : px < (mazeSize level : ℤ) - 1 := hinner.2.1
  have hpy0 : 0 < py := hinner.2.2.1
  have hpys : py < (mazeSize level : ℤ) - 1 := hinner.2.2.2
  have hnbr : isOpen M1 (px, py) ∨ ∃ q, isOpen M1 q ∧ Adj q (px, py) := by
    by_cases hxodd : px % 2 = 1
    · by_cases hyodd : py % 2 = 1
      · refine Or.inl (isOpen_setCell_of_isOpen (by decide)
          (G.latOpen (px, py) ⟨⟨hpx0, hpxs, hpy0, hpys⟩, hxodd, hyodd⟩))
      · refine Or.inr ⟨(px, py - 1), ?_, ?_⟩
        · refine isOpen_setCell_of_isOpen (by decide)
            (G.latOpen (px, py - 1) (latticePos_mk hpx0 hpxs (by omega)
              (by omega) hxodd (by omega)))
        · unfold Adj
          dsimp only
          omega
    · have hyodd : py % 2 = 1 := by
        rcases hodd with h | h
        · exact absurd h hxodd
        · exact h
      refine Or.inr ⟨(px - 1, py), ?_, ?_⟩
      · refine isOpen_setCell_of_isOpen (by decide)
          (G.latOpen (px - 1, py) (latticePos_mk (by omega) (by omega)
            hpy0 hpys (by omega) hyodd))
      · unfold Adj
        dsimp only
        omega
  have hopen2 : isOpen M2 (px, py) := by
    rw [hM2]
    split
    · unfold isOpen
      dsimp only
      rw [getCell_setCell_self_rect hrect1 ' ' (by omega) (by omega)
        (by omega) (by omega)]
      decide
    · next hW => exact hW
  have hS : getCell (setCell M2 px py 'S') px py = 'S' :=
    getCell_setCell_self_rect hrect2 'S' (by omega) (by omega) (by omega)
      (by omega)
  refine ⟨hS, ?_⟩
  have hAll1 : AllReach M1 (1, 1) := by
    apply allReach_setCell (by decide) _ G.reach
    refine Or.inr (Or.inl ?_)
    unfold isOpen
    rw [G.sCell]
    decide
  have hAll2 : AllReach M2 (1, 1) := by
    rw [hM2]
    split
    · exact allReach_setCell (by decide) (Or.inr hnbr) hAll1
    · exact hAll1
  have hAll3 : AllReach (setCell M2 px py 'S') (1, 1) :=
    allReach_setCell (by decide) (Or.inr (Or.inl hopen2)) hAll2
  have hReachP : Reach (setCell M2 px py 'S') (1, 1) (px, py) := by
    apply hAll3
    unfold isOpen
    dsimp only
    rw [hS]
    decide
  by_cases hexit : (px, py) = ((mazeSize level : ℤ) - 2, (mazeSize level : ℤ) - 2)
  · rw [← hexit]
    exact Reach.refl (px, py) (by unfold isOpen; dsimp only; rw [hS]; decide)
  · have hne_e1 : (((mazeSize level : ℤ) - 2, (mazeSize level : ℤ) - 2) : Pos) ≠
        (1, 1) := by
      intro hc
      rw [Prod.mk.injEq] at hc
      omega
    have hE : getCell (setCell M2 px py 'S') ((mazeSize level : ℤ) - 2)
        ((mazeSize level : ℤ) - 2) = 'E' := by
      rw [getCell_setCell_ne _ _ (Ne.symm hexit)]
      rw [hM2]
      split
      · rw [getCell_setCell_ne _ _ (Ne.symm hexit), hM1,
          getCell_setCell_ne _ _ hne_e1]
        exact G.eCell
      · rw [hM1, getCell_setCell_ne _ _ hne_e1]
        exact G.eCell
    have hReachE : Reach (setCell M2 px py 'S') (1, 1)
        ((mazeSize level : ℤ) - 2, (mazeSize level : ℤ) - 2) := by
      apply hAll3
      unfold isOpen
      dsimp only
      rw [hE]
      decide
    exact hReachE.symm.trans hReachP

/-- Witness for the amended C1 at level 1, player cell `(3, 4)` (one even
coordinate). -/
theorem C1_regen_lattice_reachable_witness :
    getCell (regenMaze 1 3 4 zeroRng).1 3 4 = 'S' ∧
    Reach (regenMaze 1 3 4 zeroRng).1 (5, 5) (3, 4) :=
  C1_regen_lattice_reachable 1 3 4 zeroRng (by decide) (by decide) (by decide)

end Maze

namespace Maze

/-! ### Entity placement -/

/-- `splice`-based sampling without replacement: `k` times, remove the
element at a random index and collect it; stop early when the pool empties
(the source loop condition `i < count && pathCells.length > 0`). -/
def sample : ℕ → List Pos → Rng → List Pos × Rng
  | 0, _, rng => ([], rng)
  | k + 1, cells, rng =>
    if cells.length = 0 then ([], rng)
    else
      let (r, rng1) := rng.next cells.length
      let picked := cells.getD r (0, 0)
      let rest := cells.eraseIdx r
      let (more, rng2) := sample k rest rng1
      (picked :: more, rng2)

/-- Collect the cells satisfying `pred`, scanning rows top to bottom and
each row left to right, indexing each row by its own length (the enemy
spawner's loop shape). -/
def gatherRows (m : Grid) (pred : ℤ → ℤ → Bool) : List Pos :=
  (List.range m.length).flatMap (fun (y : ℕ) =>
    (List.range (m.getD y []).length).filterMap (fun (x : ℕ) =>
      if pred (x : ℤ) (y : ℤ) then some ((x : ℤ), (y : ℤ)) else none))

/-- Collect the cells satisfying `pred`, scanning a `size × size` square
(the loop shape of the other three spawners, with `size = maze.length`). -/
def gatherSquare (size : ℕ) (pred : ℤ → ℤ → Bool) : List Pos :=
  (List.range size).flatMap (fun (y : ℕ) =>
    (List.range size).filterMap (fun (x : ℕ) =>
      if pred (x : ℤ) (y : ℤ) then some ((x : ℤ), (y : ℤ)) else none))

/-- `spawnEnemies(level, maze)`: empty below level 15, otherwise up to
`min(4, floor((level - 15) / 2) + 1)` random path cells at Manhattan
distance more than 5 from the start position. -/
def spawnEnemies (level : ℕ) (m : Grid) (startPos : Pos) (rng : Rng) :
    List Pos × Rng :=
  if level < 15 then ([], rng)
  else
    let enemyCount := min 4 ((level - 15) / 2 + 1)
    let pathCells := gatherRows m (fun x y =>
      decide (getCell m x y = ' ' ∧
        5 < |x - startPos.1| + |y - startPos.2|))
    sample enemyCount pathCells rng

/-- `spawnRegenerateIcons(level, maze)`: empty below level 10, otherwise
`(2 or 3) + 2` random path cells far from both start and exit. -/
def spawnRegenerateIcons (level : ℕ) (m : Grid) (startPos : Pos) (rng : Rng) :
    List Pos × Rng :=
  if level < 10 then ([], rng)
  else
    let (coin, rng1) := rng.next 2
    let count := (if coin = 0 then 2 else 3) + 2
    let size := m.length
    let pathCells := gatherSquare size (fun x y =>
      decide (getCell m x y = ' ' ∧
        8 < |x - startPos.1| + |y - startPos.2| ∧
        8 < |x - ((size : ℤ) - 2)| + |y - ((size : ℤ) - 2)|))
    sample count pathCells rng1

/-- `spawnTeleporters(level, maze)`: empty below level 20, otherwise
`min(14, 2 + floor((level - 20) / 4) * 2)` random path cells that are not
the start, not the exit and not a regenerate icon. -/
def spawnTeleporters (level : ℕ) (m : Grid) (startPos : Pos)
    (regenPositions : List Pos) (rng : Rng) : List Pos × Rng :=
  if level < 20 then ([], rng)
  else
    let count := min 14 (2 + (level - 20) / 4 * 2)
    let size := m.length
    let pathCells := gatherSquare size (fun x y =>
      decide (getCell m x y = ' ' ∧
        ¬(x = startPos.1 ∧ y = startPos.2) ∧
        ¬(x = (size : ℤ) - 2 ∧ y = (size : ℤ) - 2) ∧
        ¬(x, y) ∈ regenPositions))
    sample count pathCells rng

/-- `spawnStalkers(level, maze)`: empty below level 25, otherwise one random
path cell at Manhattan distance more than 10 from the start position. -/
def spawnStalkers (level : ℕ) (m : Grid) (startPos : Pos) (rng : Rng) :
    List Pos × Rng :=
  if level < 25 then ([], rng)
  else
    let pathCells := gatherSquare m.length (fun x y =>
      decide (getCell m x y = ' ' ∧
        10 < |x - startPos.1| + |y - startPos.2|))
    sample 1 pathCells rng

/-! ### Sampling lemmas -/

theorem sample_mem : ∀ (k : ℕ) (cells : List Pos) (rng : Rng) (p : Pos),
    p ∈ (sample k cells rng).1 → p ∈ cells := by
  intro k
  induction k with
  | zero => intro cells rng p h; exact absurd h (by simp [sample])
  | succ k ih =>
    intro cells rng p h
    rw [sample] at h
    split at h
    · exact absurd h (by simp)
    · next hne =>
      dsimp only at h
      rcases List.mem_cons.mp h with hp | hp
      · subst hp
        exact getD_mem _ (Nat.mod_lt _ (by omega))
      · exact (List.eraseIdx_sublist cells _).subset (ih _ _ p hp)

theorem sample_length_le : ∀ (k : ℕ) (cells : List Pos) (rng : Rng),
    (sample k cells rng).1.length ≤ k := by
  intro k
  induction k with
  | zero => intro cells rng; simp [sample]
  | succ k ih =>
    intro cells rng
    rw [sample]
    split
    · simp
    · dsimp only
      rw [List.length_cons]
      exact Nat.succ_le_succ (ih _ _)

theorem sample_length_eq : ∀ (k : ℕ) (cells : List Pos) (rng : Rng),
    k ≤ cells.length → (sample k cells rng).1.length = k := by
  intro k
  induction k with
  | zero => intro cells rng _; simp [sample]
  | succ k ih =>
    intro cells rng hk
    rw [sample]
    rw [if_neg (by omega)]
    dsimp only
    rw [List.length_cons]
    have hr : (rng.next cells.length).1 < cells.length := Nat.mod_lt _ (by omega)
    rw [ih _ _ (by rw [List.length_eraseIdx_of_lt hr]; omega)]

theorem gatherSquare_mem {size : ℕ} {pred : ℤ → ℤ → Bool} {p : Pos} :
    p ∈ gatherSquare size pred ↔
      ∃ x y : ℕ, x < size ∧ y < size ∧ p = ((x : ℤ), (y : ℤ)) ∧
        pred (x : ℤ) (y : ℤ) = true := by
  unfold gatherSquare
  rw [List.mem_flatMap]
  constructor
  · rintro ⟨y, hy, hmem⟩
    rw [List.mem_range] at hy
    rw [List.mem_filterMap] at hmem
    obtain ⟨x, hx, hif⟩ := hmem
    rw [List.mem_range] at hx
    by_cases hp : pred (x : ℤ) (y : ℤ) = true
    · rw [if_pos hp] at hif
      rw [Option.some.injEq] at hif
      exact ⟨x, y, hx, hy, hif.symm, hp⟩
    · rw [if_neg hp] at hif
      exact absurd hif (by simp)
  · rintro ⟨x, y, hx, hy, hp, hpred⟩
    refine ⟨y, List.mem_range.mpr hy, ?_⟩
    rw [List.mem_filterMap]
    exact ⟨x, List.mem_range.mpr hx, by rw [if_pos hpred, hp]⟩

theorem gatherRows_mem {m : Grid} {pred : ℤ → ℤ → Bool} {p : Pos} :
    p ∈ gatherRows m pred ↔
      ∃ x y : ℕ, x < (m.getD y []).length ∧ y < m.length ∧
        p = ((x : ℤ), (y : ℤ)) ∧ pred (x : ℤ) (y : ℤ) = true := by
  unfold gatherRows
  rw [List.mem_flatMap]
  constructor
  · rintro ⟨y, hy, hmem⟩
    rw [List.mem_range] at hy
    rw [List.mem_filterMap] at hmem
    obtain ⟨x, hx, hif⟩ := hmem
    rw [List.mem_range] at hx
    by_cases hp : pred (x : ℤ) (y : ℤ) = true
    · rw [if_pos hp] at hif
      rw [Option.some.injEq] at hif
      exact ⟨x, y, hx, hy, hif.symm, hp⟩
    · rw [if_neg hp] at hif
      exact absurd hif (by simp)
  · rintro ⟨x, y, hx, hy, hp, hpred⟩
    refine ⟨y, List.mem_range.mpr hy, ?_⟩
    rw [List.mem_filterMap]
    exact ⟨x, List.mem_range.mpr hx, by rw [if_pos hpred, hp]⟩

end Maze

namespace Maze

/-- C5: every entity-placement operation returns only positions whose grid
cell is a path cell (never a wall), returns at most its level-gated count
(enemies `min(4, floor((level-15)/2)+1)`, regenerate icons at most 5,
teleporters `min(14, 2 + floor((level-20)/4)*2)`, stalkers 1), and returns
the empty set below its unlock level (enemies below 15, regenerate icons
below 10, teleporters below 20, stalkers below 25). -/
theorem C5_entity_placement (level : ℕ) (m : Grid) (startPos : Pos)
    (regenPositions : List Pos) (rng : Rng) :
    (∀ p ∈ (spawnEnemies level m startPos rng).1, getCell m p.1 p.2 = ' ') ∧
    (spawnEnemies level m startPos rng).1.length ≤
      min 4 ((level - 15) / 2 + 1) ∧
    (level < 15 → (spawnEnemies level m startPos rng).1 = []) ∧
    (∀ p ∈ (spawnRegenerateIcons level m startPos rng).1,
      getCell m p.1 p.2 = ' ') ∧
    (spawnRegenerateIcons level m startPos rng).1.length ≤ 5 ∧
    (level < 10 → (spawnRegenerateIcons level m startPos rng).1 = []) ∧
    (∀ p ∈ (spawnTeleporters level m startPos regenPositions rng).1,
      getCell m p.1 p.2 = ' ') ∧
    (spawnTeleporters level m startPos regenPositions rng).1.length ≤
      min 14 (2 + (level - 20) / 4 * 2) ∧
    (level < 20 →
      (spawnTeleporters level m startPos regenPositions rng).1 = []) ∧
    (∀ p ∈ (spawnStalkers level m startPos rng).1, getCell m p.1 p.2 = ' ') ∧
    (spawnStalkers level m startPos rng).1.length ≤ 1 ∧
    (level < 25 → (spawnStalkers level m startPos rng).1 = []) := by
  refine ⟨?_, ?_, ?_, ?_, ?_, ?_, ?_, ?_, ?_, ?_, ?_, ?_⟩
  · intro p hp
    unfold spawnEnemies at hp
    split at hp
    · exact absurd hp (by simp)
    · have hmem := sample_mem _ _ _ p hp
      rw [gatherRows_mem] at hmem
      obtain ⟨x, y, _, _, hpxy, hpred⟩ := hmem
      subst hpxy
      exact (of_decide_eq_true hpred).1
  · unfold spawnEnemies
    split
    · simp
    · exact sample_length_le _ _ _
  · intro hlt
    unfold spawnEnemies
    rw [if_pos hlt]
  · intro p hp
    unfold spawnRegenerateIcons at hp
    split at hp
    · exact absurd hp (by simp)
    · have hmem := sample_mem _ _ _ p hp
      rw [gatherSquare_mem] at hmem
      obtain ⟨x, y, _, _, hpxy, hpred⟩ := hmem
      subst hpxy
      exact (of_decide_eq_true hpred).1
  · unfold spawnRegenerateIcons
    split
    · simp
    · refine le_trans (sample_length_le _ _ _) ?_
      split <;> decide
  · intro hlt
    unfold spawnRegenerateIcons
    rw [if_pos hlt]
  · intro p hp
    unfold spawnTeleporters at hp
    split at hp
    · exact absurd hp (by simp)
    · have hmem := sample_mem _ _ _ p hp
      rw [gatherSquare_mem] at hmem
      obtain ⟨x, y, _, _, hpxy, hpred⟩ := hmem
      subst hpxy
      exact (of_decide_eq_true hpred).1
  · unfold spawnTeleporters
    split
    · simp
    · exact sample_length_le _ _ _
  · intro hlt
    unfold spawnTeleporters
    rw [if_pos hlt]
  · intro p hp
    unfold spawnStalkers at hp
    split at hp
    · exact absurd hp (by simp)
    · have hmem := sample_mem _ _ _ p hp
      rw [gatherSquare_mem] at hmem
      obtain ⟨x, y, _, _, hpxy, hpred⟩ := hmem
      subst hpxy
      exact (of_decide_eq_true hpred).1
  · unfold spawnStalkers
    split
    · simp
    · exact sample_length_le _ _ _
  · intro hlt
    unfold spawnStalkers
    rw [if_pos hlt]

end Maze

namespace Maze

/-- Witness for C5 at level 9 (below every unlock level): all four
placements are empty. -/
theorem C5_entity_placement_witness :
    (spawnEnemies 9 [[' ']] (1, 1) zeroRng).1 = [] ∧
    (spawnRegenerateIcons 9 [[' ']] (1, 1) zeroRng).1 = [] ∧
    (spawnTeleporters 9 [[' ']] (1, 1) [] zeroRng).1 = [] ∧
    (spawnStalkers 9 [[' ']] (1, 1) zeroRng).1 = [] := by
  have H := C5_entity_placement 9 [[' ']] (1, 1) [] zeroRng
  exact ⟨H.2.2.1 (by decide), H.2.2.2.2.2.1 (by decide),
    H.2.2.2.2.2.2.2.2.1 (by decide), H.2.2.2.2.2.2.2.2.2.2.2 (by decide)⟩

/-! ### Level loading (the composition used by `loadLevel`) -/

/-- The scan of `loadLevel` looking for the Start cell, row by row, left to
right; fuelled by the number of rows. -/
def findSGo (m : Grid) : ℕ → ℕ → Option Pos
  | 0, _ => none
  | fuel + 1, y =>
    match (m.getD y []).findIdx? (fun c => c = 'S') with
    | some x => some ((x : ℤ), (y : ℤ))
    | none => findSGo m fuel (y + 1)

/-- First cell equal to `'S'` in row-major order. -/
def findS (m : Grid) : Option Pos := findSGo m m.length 0

/-- Everything `loadLevel` computes: the fresh maze, the found start
position, and the four entity placements, threading the random tape through
the colour draw, the generator and the spawners in source order.  When no
Start cell exists the source returns before spawning; that branch is proved
unreachable for generated mazes. -/
structure LevelData where
  maze : Grid
  startPos : Pos
  enemies : List Pos
  regens : List Pos
  teleporters : List Pos
  stalkers : List Pos
  rngOut : Rng

def loadLevelData (level : ℕ) (rng : Rng) : LevelData :=
  let (_, rng0) := rng.next 12
  let (m, rng1) := generateMaze level rng0
  match findS m with
  | none => ⟨m, (0, 0), [], [], [], [], rng1⟩
  | some startPos =>
    let (enemies, rng2) := spawnEnemies level m startPos rng1
    let (regens, rng3) := spawnRegenerateIcons level m startPos rng2
    let (teles, rng4) := spawnTeleporters level m startPos regens rng3
    let (stalkers, rng5) := spawnStalkers level m startPos rng4
    ⟨m, startPos, enemies, regens, teles, stalkers, rng5⟩

end Maze

namespace Maze

theorem getCell_natCast (m : Grid) (x y : ℕ) :
    getCell m (x : ℤ) (y : ℤ) = (m.getD y []).getD x 'W' := by
  unfold getCell
  rw [if_pos ⟨Int.natCast_nonneg x, Int.natCast_nonneg y⟩]
  rw [Int.toNat_ofNat, Int.toNat_ofNat]

theorem eq_cons_cons_of_two_le {α : Type} (d : α) :
    ∀ (l : List α), 2 ≤ l.length → l = l.getD 0 d :: l.getD 1 d :: l.drop 2
  | _ :: _ :: _, _ => rfl

/-- In every generated maze the Start scan finds exactly `(1, 1)`: row 0 is
all walls, and in row 1 the cell at column 0 is a wall while the cell at
column 1 is the forced Start. -/
theorem findS_generated {level : ℕ} (hlevel : 1 ≤ level) (rng : Rng) :
    findS (generateMaze level rng).1 = some (1, 1) := by
  obtain ⟨hsize, _, _⟩ := mazeSize_facts hlevel
  have G := generateMaze_spec level hlevel rng
  have hlen : (generateMaze level rng).1.length = mazeSize level := G.rect.1
  obtain ⟨k, hk⟩ : ∃ k, mazeSize level = k + 2 := ⟨mazeSize level - 2, by omega⟩
  unfold findS
  rw [hlen, hk]
  rw [findSGo]
  have hrow0 : ((generateMaze level rng).1.getD 0 []).findIdx?
      (fun c => c = 'S') = none := by
    rw [List.findIdx?_eq_none_iff]
    intro c hc
    rw [List.mem_iff_getElem] at hc
    obtain ⟨i, hi, hci⟩ := hc
    have hgc : getCell (generateMaze level rng).1 (i : ℤ) (0 : ℕ) =
        ((generateMaze level rng).1.getD 0 []).getD i 'W' :=
      getCell_natCast _ i 0
    have hW := G.border (i : ℤ) 0 (by
      intro hin
      exact absurd hin.2.2.1 (by omega))
    rw [List.getD_eq_getElem?_getD, List.getElem?_eq_getElem hi] at hgc
    simp only [Option.getD_some] at hgc
    rw [hci] at hgc
    rw [show ((0 : ℕ) : ℤ) = (0 : ℤ) from rfl] at hgc
    rw [hW] at hgc
    rw [← hgc]
    decide
  rw [hrow0]
  rw [findSGo]
  have hlen1 : 2 ≤ ((generateMaze level rng).1.getD 1 []).length := by
    rw [rect_row_length G.rect (by omega)]
    omega
  have hc0 : ((generateMaze level rng).1.getD 1 []).getD 0 'W' = 'W' := by
    have hgc := getCell_natCast (generateMaze level rng).1 0 1
    rw [← hgc]
    apply G.border
    intro hin
    exact absurd hin.1 (by omega)
  have hc1 : ((generateMaze level rng).1.getD 1 []).getD 1 'W' = 'S' := by
    have hgc := getCell_natCast (generateMaze level rng).1 1 1
    rw [← hgc]
    exact G.sCell
  rw [eq_cons_cons_of_two_le 'W' _ hlen1, List.findIdx?_cons, hc0]
  rw [if_neg (by decide)]
  rw [List.findIdx?_cons, hc1]
  rw [if_pos (by decide)]
  rfl

end Maze

namespace Maze

theorem list_toFinset_card_le (l : List Pos) : l.toFinset.card ≤ l.length := by
  rw [List.card_toFinset]
  exact l.dedup_sublist.length_le

theorem nodup_subset_length_le {l bad : List Pos} (hnd : l.Nodup)
    (hsub : ∀ p ∈ l, p ∈ bad) : l.length ≤ bad.length := by
  calc l.length = l.toFinset.card := (List.toFinset_card_of_nodup hnd).symm
    _ ≤ bad.toFinset.card := Finset.card_le_card
        (fun x hx => List.mem_toFinset.mpr (hsub x (List.mem_toFinset.mp hx)))
    _ ≤ bad.length := list_toFinset_card_le bad

/-- A duplicate-free list loses at most `bad.length` elements when the
members of `bad` are filtered out. -/
theorem filter_not_mem_length {l bad : List Pos} (hnd : l.Nodup) :
    l.length ≤ (l.filter (fun p => decide (¬ p ∈ bad))).length + bad.length := by
  have h1 := List.length_eq_countP_add_countP
    (fun p => decide (¬ p ∈ bad)) l
  rw [List.countP_eq_length_filter, List.countP_eq_length_filter] at h1
  have h2 : (l.filter (fun a => ¬(decide (¬ a ∈ bad)))).length ≤ bad.length := by
    apply nodup_subset_length_le (hnd.filter _)
    intro p hp
    have hmem := (List.mem_filter.mp hp).2
    simpa using hmem
  omega

/-- Elements of a duplicate-free list that all occur in another list give a
lower bound on that list's length. -/
theorem length_le_of_nodup_subset {l big : List Pos} (hnd : l.Nodup)
    (hsub : ∀ p ∈ l, p ∈ big) : l.length ≤ big.length :=
  nodup_subset_length_le hnd hsub

end Maze

namespace Maze

theorem spawnRegenerateIcons_len (level : ℕ) (m : Grid) (startPos : Pos)
    (rng : Rng) : (spawnRegenerateIcons level m startPos rng).1.length ≤ 5 := by
  unfold spawnRegenerateIcons
  split
  · simp
  · refine le_trans (sample_length_le _ _ _) ?_
    split <;> decide

/-- `spawnTeleporters` always returns an even-length list whenever, from
level 20 on, the grid is the level's size and every carving-lattice cell
`(2a + 3, 3)` (`a < 21`) other than the start cell holds a space and at
most 5 cells are excluded as regenerate icons: below level 20 the list is
empty, and otherwise those candidates outnumber the even target count
`min(14, 2 + floor((level-20)/4)*2)`, so exactly that many are placed. -/
theorem spawnTeleporters_even {level : ℕ} {m : Grid} {startPos : Pos}
    {R : List Pos} {rng : Rng}
    (hsize : 20 ≤ level → m.length = mazeSize level)
    (hcand : 20 ≤ level → ∀ a : ℕ, a < 21 →
      (((2 * a + 3 : ℕ) : ℤ), ((3 : ℕ) : ℤ)) ≠ startPos →
      getCell m ((2 * a + 3 : ℕ) : ℤ) ((3 : ℕ) : ℤ) = ' ')
    (hR : R.length ≤ 5) :
    (spawnTeleporters level m startPos R rng).1.length % 2 = 0 := by
  by_cases hgate : level < 20
  · unfold spawnTeleporters
    rw [if_pos hgate]
    rfl
  · have hlev20 : 20 ≤ level := by omega
    have hlevel : 1 ≤ level := by omega
    obtain ⟨hsize7, hszodd, heq⟩ := mazeSize_facts hlevel
    have hsize45 : 45 ≤ mazeSize level := by omega
    have hmlen := hsize hlev20
    unfold spawnTeleporters
    rw [if_neg hgate]
    dsimp only
    have hqual : ∀ p ∈ ((List.range 21).map
        (fun a => (((2 * a + 3 : ℕ) : ℤ), ((3 : ℕ) : ℤ)))).filter
          (fun p => decide (¬ p ∈ startPos :: R)),
        p ∈ gatherSquare m.length (fun x y =>
          decide (getCell m x y = ' ' ∧
            ¬(x = startPos.1 ∧ y = startPos.2) ∧
            ¬(x = (m.length : ℤ) - 2 ∧ y = (m.length : ℤ) - 2) ∧
            ¬(x, y) ∈ R)) := by
      intro p hp
      have hpc := (List.mem_filter.mp hp).1
      have hpSR : ¬ p ∈ startPos :: R :=
        of_decide_eq_true (List.mem_filter.mp hp).2
      have hpS : p ≠ startPos := by
        intro hc
        exact hpSR (hc ▸ List.mem_cons_self _ _)
      have hpR : ¬ p ∈ R := fun hc => hpSR (List.mem_cons_of_mem _ hc)
      rw [List.mem_map] at hpc
      obtain ⟨a, ha, hpa⟩ := hpc
      rw [List.mem_range] at ha
      rw [gatherSquare_mem]
      refine ⟨2 * a + 3, 3, by omega, by omega, hpa.symm, ?_⟩
      apply decide_eq_true
      refine ⟨?_, ?_, by rw [hmlen]; omega, ?_⟩
      · exact hcand hlev20 a ha (by rw [hpa]; exact hpS)
      · intro hc
        apply hpS
        rw [← hpa, Prod.ext_iff]
        exact ⟨hc.1, hc.2⟩
      · rw [hpa]
        exact hpR
    have hnd : (((List.range 21).map
        (fun a => (((2 * a + 3 : ℕ) : ℤ), ((3 : ℕ) : ℤ)))).filter
          (fun p => decide (¬ p ∈ startPos :: R))).Nodup := by
      apply List.Nodup.filter
      apply List.Nodup.map _ (List.nodup_range 21)
      intro a b hab
      rw [Prod.mk.injEq] at hab
      omega
    have hflen : 15 ≤ (((List.range 21).map
        (fun a => (((2 * a + 3 : ℕ) : ℤ), ((3 : ℕ) : ℤ)))).filter
          (fun p => decide (¬ p ∈ startPos :: R))).length := by
      have h21 := @filter_not_mem_length
        ((List.range 21).map
          (fun a => (((2 * a + 3 : ℕ) : ℤ), ((3 : ℕ) : ℤ))))
        (startPos :: R)
        (by
          apply List.Nodup.map _ (List.nodup_range 21)
          intro a b hab
          rw [Prod.mk.injEq] at hab
          omega)
      rw [List.length_map, List.length_range] at h21
      have h6 : (startPos :: R).length ≤ 6 := by
        rw [List.length_cons]
        omega
      omega
    have hpathlen : 14 ≤ (gatherSquare m.length (fun x y =>
        decide (getCell m x y = ' ' ∧
          ¬(x = startPos.1 ∧ y = startPos.2) ∧
          ¬(x = (m.length : ℤ) - 2 ∧ y = (m.length : ℤ) - 2) ∧
          ¬(x, y) ∈ R))).length := by
      have := nodup_subset_length_le hnd hqual
      omega
    rw [sample_length_eq _ _ _ (le_trans (Nat.min_le_left _ _) hpathlen)]
    omega

/-- The regenerated grid is square of the level's size, for any player
cell. -/
theorem regenMaze_rect (level : ℕ) (px py : ℤ) (rng : Rng)
    (hlevel : 1 ≤ level) :
    Rect (regenMaze level px py rng).1 (mazeSize level) := by
  have G := generateMaze_spec level hlevel rng
  rw [regenMaze_eq]
  dsimp only
  apply rect_setCell
  split
  · split
    · exact rect_setCell (rect_setCell G.rect _ _ _) _ _ _
    · exact rect_setCell G.rect _ _ _
  · split
    · exact rect_setCell G.rect _ _ _
    · exact G.rect

/-- Any lattice cell of a regenerated grid other than the old Start, the
Exit and the player's cell holds a space. -/
theorem regenMaze_cell_space (level : ℕ) (px py : ℤ) (rng : Rng)
    (hlevel : 1 ≤ level) {x y : ℤ}
    (hlat : LatticePos (mazeSize level) (x, y))
    (hne1 : ((x, y) : Pos) ≠ (1, 1))
    (hne2 : ((x, y) : Pos) ≠ ((mazeSize level : ℤ) - 2, (mazeSize level : ℤ) - 2))
    (hnp : ((x, y) : Pos) ≠ (px, py)) :
    getCell (regenMaze level px py rng).1 x y = ' ' := by
  have G := generateMaze_spec level hlevel rng
  rw [regenMaze_eq]
  dsimp only
  rw [if_pos G.sCell]
  rw [getCell_setCell_ne _ _ hnp]
  split
  · rw [getCell_setCell_ne _ _ hnp, getCell_setCell_ne _ _ hne1]
    rcases G.cells x y hne1 hne2 with hW | hSp
    · exact absurd hW (G.latOpen _ hlat)
    · exact hSp
  · rw [getCell_setCell_ne _ _ hne1]
    rcases G.cells x y hne1 hne2 with hW | hSp
    · exact absurd hW (G.latOpen _ hlat)
    · exact hSp

end Maze

namespace Maze


end Maze

namespace Maze

/-! ### Game state and the interaction resolver -/

/-- The `gameStatus` signal values. -/
inductive GameStatus
  | start
  | playing
  | levelComplete
  | gameComplete
  | gameOver
deriving DecidableEq

/-- The game-logic fields of the component: exactly the signals and fields
read or written by `movePlayer`, `checkGameState` and
`regenerateMazeFromPlayerPosition` (scrolling, sound and the timer handles
are presentation-only and not modelled). -/
structure GameState where
  level : ℕ
  score : ℕ
  timer : ℕ
  status : GameStatus
  canTeleport : Bool
  playerHit : Bool
  maze : Grid
  playerPos : Pos
  startPosition : Pos
  enemies : List Pos
  stalkers : List Pos
  regenerateIconPositions : List Pos
  teleporterPositions : List Pos
  rng : Rng

/-- `regenerateMazeFromPlayerPosition`: regenerate the grid anchored at the
player (`regenMaze`), move the start position to the player's cell, and
respawn all four entity sets against the new grid (the source sets
`startPosition` before spawning, so the spawners measure distances from the
player's cell), threading the random tape in source order. -/
def regenerateMazeFromPlayerPosition (s : GameState) : GameState :=
  let mr := regenMaze s.level s.playerPos.1 s.playerPos.2 s.rng
  let er := spawnEnemies s.level mr.1 s.playerPos mr.2
  let rr := spawnRegenerateIcons s.level mr.1 s.playerPos er.2
  let tr := spawnTeleporters s.level mr.1 s.playerPos rr.1 rr.2
  let sr := spawnStalkers s.level mr.1 s.playerPos tr.2
  { s with
    maze := mr.1
    startPosition := s.playerPos
    enemies := er.1
    regenerateIconPositions := rr.1
    teleporterPositions := tr.1
    stalkers := sr.1
    rng := sr.2 }

/-- The tail of `checkGameState` after the stalker and teleporter checks:
the regenerate-icon check, the exit check (time bonus
`max(0, 1000 - timer * 10)` is the truncated natural subtraction, score and
status updated in the same step), and the enemy-collision check. -/
def checkAfterTeleport (s : GameState) : GameState :=
  if s.regenerateIconPositions.any (fun r => decide (r = s.playerPos)) then
    regenerateMazeFromPlayerPosition s
  else if getCell s.maze s.playerPos.1 s.playerPos.2 = 'E' then
    if s.level = 30 then
      { s with
        score := s.score + (1000 - s.timer * 10) + 500 * s.level
        status := GameStatus.gameComplete }
    else
      { s with
        score := s.score + (1000 - s.timer * 10) + 500 * s.level
        status := GameStatus.levelComplete }
  else if s.enemies.any (fun e => decide (e = s.playerPos)) then
    { s with playerHit := true }
  else s

/-- `checkGameState`: nothing happens unless the game is playing and the
player is not in hit recovery; then the stalker collision check, the
teleporter resolution (found index and the can-teleport flag set: disable
teleporting, jump to index `i + 1` for even `i` and `i - 1` for odd `i` when
that index is in range and stop; the source's `destinationIndex >= 0` guard
is vacuous since `i - 1` is taken only for `i ≥ 1`), and otherwise the
remaining interaction checks. -/
def checkGameState (s : GameState) : GameState :=
  if s.status ≠ GameStatus.playing ∨ s.playerHit = true then s
  else if s.stalkers.any (fun st => decide (st = s.playerPos)) then
    { s with status := GameStatus.gameOver }
  else
    match s.teleporterPositions.findIdx? (fun tp => decide (tp = s.playerPos)) with
    | some i =>
      if s.canTeleport then
        if (if i % 2 = 0 then i + 1 else i - 1) < s.teleporterPositions.length then
          { s with
            canTeleport := false
            playerPos := s.teleporterPositions.getD
              (if i % 2 = 0 then i + 1 else i - 1) (0, 0) }
        else checkAfterTeleport { s with canTeleport := false }
      else checkAfterTeleport s
    | none => checkAfterTeleport s

/-- `movePlayer(dx, dy)`: guard on status and the hit flag, validate the
target cell exactly as the source (`y` against the number of rows, `x`
against that row's length, the cell not a wall), then move, re-arm
teleporting when the new cell is not a teleporter, and run
`checkGameState`. -/
def movePlayer (s : GameState) (dx dy : ℤ) : GameState :=
  if s.status ≠ GameStatus.playing ∨ s.playerHit = true then s
  else if 0 ≤ s.playerPos.2 + dy ∧ s.playerPos.2 + dy < (s.maze.length : ℤ) ∧
      0 ≤ s.playerPos.1 + dx ∧
      s.playerPos.1 + dx <
        ((s.maze.getD (s.playerPos.2 + dy).toNat []).length : ℤ) ∧
      getCell s.maze (s.playerPos.1 + dx) (s.playerPos.2 + dy) ≠ 'W' then
    checkGameState
      (if (s.teleporterPositions.any (fun tp =>
          decide (tp = (s.playerPos.1 + dx, s.playerPos.2 + dy)))) then
        { s with playerPos := (s.playerPos.1 + dx, s.playerPos.2 + dy) }
      else
        { s with
          playerPos := (s.playerPos.1 + dx, s.playerPos.2 + dy)
          canTeleport := true })
  else s

/-- The deferred enemy-collision recovery (the body of the 400 ms
`setTimeout` in `checkGameState`): reset the player to the level start and
clear the hit flag. -/
def hitRecovery (s : GameState) : GameState :=
  { s with
    playerPos := s.startPosition
    playerHit := false }

end Maze

namespace Maze

/-- A small concrete game state over an explicit 7 × 7 grid (the level-1
size), used to instantiate the game-logic theorems. -/
def demoMaze : Grid := [
  ['W', 'W', 'W', 'W', 'W', 'W', 'W'],
  ['W', 'S', ' ', ' ', ' ', ' ', 'W'],
  ['W', ' ', 'W', 'W', 'W', ' ', 'W'],
  ['W', ' ', 'W', 'E', 'W', ' ', 'W'],
  ['W', ' ', 'W', ' ', 'W', ' ', 'W'],
  ['W', ' ', ' ', ' ', ' ', ' ', 'W'],
  ['W', 'W', 'W', 'W', 'W', 'W', 'W']]

/-- A playing state on `demoMaze` with the player at the start `(1, 1)` and
no entities. -/
def demoState : GameState :=
  { level := 1
    score := 0
    timer := 0
    status := GameStatus.playing
    canTeleport := true
    playerHit := false
    maze := demoMaze
    playerPos := (1, 1)
    startPosition := (1, 1)
    enemies := []
    stalkers := []
    regenerateIconPositions := []
    teleporterPositions := []
    rng := zeroRng }

end Maze

namespace Maze

/-- C9: a move intent is a no-op — the whole state is returned unchanged,
with no error signalled — whenever the game is not in the playing state, or
the player-hit flag is set, or the target cell is out of bounds (row index
against the number of rows, column index against that row's length), or the
target cell is a wall. -/
theorem C9_invalid_move_noop (s : GameState) (dx dy : ℤ)
    (h : s.status ≠ GameStatus.playing ∨ s.playerHit = true ∨
      ¬(0 ≤ s.playerPos.2 + dy ∧ s.playerPos.2 + dy < (s.maze.length : ℤ) ∧
        0 ≤ s.playerPos.1 + dx ∧
        s.playerPos.1 + dx <
          ((s.maze.getD (s.playerPos.2 + dy).toNat []).length : ℤ)) ∨
      getCell s.maze (s.playerPos.1 + dx) (s.playerPos.2 + dy) = 'W') :
    movePlayer s dx dy = s := by
  unfold movePlayer
  by_cases h1 : s.status ≠ GameStatus.playing ∨ s.playerHit = true
  · rw [if_pos h1]
  · rw [if_neg h1]
    have hcond : ¬(0 ≤ s.playerPos.2 + dy ∧
        s.playerPos.2 + dy < (s.maze.length : ℤ) ∧
        0 ≤ s.playerPos.1 + dx ∧
        s.playerPos.1 + dx <
          ((s.maze.getD (s.playerPos.2 + dy).toNat []).length : ℤ) ∧
        getCell s.maze (s.playerPos.1 + dx) (s.playerPos.2 + dy) ≠ 'W') := by
      rcases h with h | h | h | h
      · exact absurd (Or.inl h) h1
      · exact absurd (Or.inr h) h1
      · intro hc
        exact h ⟨hc.1, hc.2.1, hc.2.2.1, hc.2.2.2.1⟩
      · intro hc
        exact hc.2.2.2.2 h
    rw [if_neg hcond]

/-- Witness for C9: moving up from the start of the demo state targets the
wall cell `(1, 0)` and leaves the state unchanged. -/
theorem C9_invalid_move_noop_witness :
    movePlayer demoState 0 (-1) = demoState :=
  C9_invalid_move_noop demoState 0 (-1) (by decide)

end Maze

namespace Maze

/-- C4: with the game playing, the player unhit, no stalker on the player's
cell, the player's cell found at teleporter index `i`, the can-teleport flag
set and an even-length teleporter list, `checkGameState` clears the
can-teleport flag and moves the player to the teleporter at index `i + 1`
for even `i` and `i - 1` for odd `i`, changing nothing else (no further
interaction checks run in that call). -/
theorem C4_teleporter_resolution (s : GameState) (i : ℕ)
    (hst : s.status = GameStatus.playing) (hhit : s.playerHit = false)
    (hstalk : ∀ st ∈ s.stalkers, st ≠ s.playerPos)
    (hfind : s.teleporterPositions.findIdx?
      (fun tp => decide (tp = s.playerPos)) = some i)
    (hcan : s.canTeleport = true)
    (heven : s.teleporterPositions.length % 2 = 0) :
    checkGameState s =
      { s with
        canTeleport := false
        playerPos := s.teleporterPositions.getD
          (if i % 2 = 0 then i + 1 else i - 1) (0, 0) } := by
  have h1 : ¬(s.status ≠ GameStatus.playing ∨ s.playerHit = true) := by
    simp [hst, hhit]
  have h2 : s.stalkers.any (fun st => decide (st = s.playerPos)) = false := by
    simp only [List.any_eq_false, decide_eq_true_eq]
    exact hstalk
  have hi : i < s.teleporterPositions.length :=
    (List.findIdx?_eq_some_iff_findIdx_eq.mp hfind).1
  have hdest : (if i % 2 = 0 then i + 1 else i - 1) <
      s.teleporterPositions.length := by
    split <;> omega
  unfold checkGameState
  rw [if_neg h1, if_neg (by rw [h2]; simp), hfind]
  dsimp only
  rw [if_pos hcan, if_pos hdest]

/-- Witness for C4: in the demo state with teleporters at `(1, 1)` (the
player's cell, index 0) and `(5, 5)`, the resolver jumps the player to
`(5, 5)` and clears the can-teleport flag. -/
theorem C4_teleporter_resolution_witness :
    (checkGameState { demoState with
        teleporterPositions := [(1, 1), (5, 5)] }).playerPos = (5, 5) ∧
    (checkGameState { demoState with
        teleporterPositions := [(1, 1), (5, 5)] }).canTeleport = false := by
  have h := C4_teleporter_resolution
    { demoState with teleporterPositions := [(1, 1), (5, 5)] } 0
    rfl rfl (by decide) (by decide) rfl (by decide)
  rw [h]
  exact ⟨rfl, rfl⟩

end Maze

namespace Maze

/-- C7: when the player (playing, unhit, not on a stalker, teleporter or
regenerate icon) stands on the Exit cell, `checkGameState` adds exactly
`max 0 (1000 - timer * 10) + 500 * level` to the score in the same step in
which it sets the level-complete status (game-complete at level 30); at
`timer = 0, level = 1` the increment is 1500, and at `timer = 150` the time
bonus clamps to 0 so the increment is `500 * level`. -/
theorem C7_exit_scoring (s : GameState)
    (hst : s.status = GameStatus.playing) (hhit : s.playerHit = false)
    (hstalk : ∀ st ∈ s.stalkers, st ≠ s.playerPos)
    (htel : ∀ tp ∈ s.teleporterPositions, tp ≠ s.playerPos)
    (hreg : ∀ r ∈ s.regenerateIconPositions, r ≠ s.playerPos)
    (hexit : getCell s.maze s.playerPos.1 s.playerPos.2 = 'E') :
    ((checkGameState s).score : ℤ) =
        (s.score : ℤ) + max 0 (1000 - (s.timer : ℤ) * 10) +
          500 * (s.level : ℤ) ∧
    (checkGameState s).status =
        (if s.level = 30 then GameStatus.gameComplete
          else GameStatus.levelComplete) ∧
    (s.timer = 0 ∧ s.level = 1 →
      (checkGameState s).score = s.score + 1500) ∧
    (s.timer = 150 →
      (checkGameState s).score = s.score + 500 * s.level) := by
  have h1 : ¬(s.status ≠ GameStatus.playing ∨ s.playerHit = true) := by
    simp [hst, hhit]
  have h2 : s.stalkers.any (fun st => decide (st = s.playerPos)) = false := by
    simp only [List.any_eq_false, decide_eq_true_eq]
    exact hstalk
  have h3 : s.teleporterPositions.findIdx?
      (fun tp => decide (tp = s.playerPos)) = none := by
    rw [List.findIdx?_eq_none_iff]
    intro tp htp
    simpa using htel tp htp
  have h4 : s.regenerateIconPositions.any
      (fun r => decide (r = s.playerPos)) = false := by
    simp only [List.any_eq_false, decide_eq_true_eq]
    exact hreg
  have hck : checkGameState s =
      (if s.level = 30 then
        { s with
          score := s.score + (1000 - s.timer * 10) + 500 * s.level
          status := GameStatus.gameComplete }
       else
        { s with
          score := s.score + (1000 - s.timer * 10) + 500 * s.level
          status := GameStatus.levelComplete }) := by
    unfold checkGameState checkAfterTeleport
    rw [if_neg h1, if_neg (by rw [h2]; simp), h3]
    dsimp only
    rw [if_neg (by rw [h4]; simp), if_pos hexit]
  rw [hck]
  by_cases h30 : s.level = 30
  · rw [if_pos h30, if_pos h30]
    refine ⟨?_, rfl, ?_, ?_⟩
    · dsimp only
      omega
    · intro hc
      dsimp only
      omega
    · intro hc
      dsimp only
      omega
  · rw [if_neg h30, if_neg h30]
    refine ⟨?_, rfl, ?_, ?_⟩
    · dsimp only
      omega
    · intro hc
      dsimp only
      omega
    · intro hc
      dsimp only
      omega

/-- Witness for C7: the demo state with the player on the Exit cell
`(3, 3)`, timer 0 and level 1, scores exactly 1500 and completes the
level. -/
theorem C7_exit_scoring_witness :
    (checkGameState { demoState with playerPos := (3, 3) }).score = 1500 ∧
    (checkGameState { demoState with playerPos := (3, 3) }).status =
      GameStatus.levelComplete := by
  have h := C7_exit_scoring { demoState with playerPos := (3, 3) }
    rfl rfl (by decide) (by decide) (by decide) (by decide)
  refine ⟨h.2.2.1 ⟨rfl, rfl⟩, ?_⟩
  rw [h.2.1]
  decide

end Maze

namespace Maze

/-! ### Player-position validity (C10) -/

/-- An open cell is inside the grid: non-negative coordinates, row index
below the number of rows, column index below that row's length. -/
theorem isOpen_inBounds {m : Grid} {p : Pos} (h : isOpen m p) :
    0 ≤ p.1 ∧ 0 ≤ p.2 ∧ p.2 < (m.length : ℤ) ∧
      p.1 < ((m.getD p.2.toNat []).length : ℤ) := by
  unfold isOpen getCell at h
  by_cases h0 : 0 ≤ p.1 ∧ 0 ≤ p.2
  · rw [if_pos h0] at h
    by_cases hy : p.2.toNat < m.length
    · by_cases hx : p.1.toNat < (m.getD p.2.toNat []).length
      · exact ⟨h0.1, h0.2, by omega, by omega⟩
      · have hge : (m.getD p.2.toNat []).length ≤ p.1.toNat := by omega
        rw [List.getD_eq_default _ _ hge] at h
        exact absurd rfl h
    · have hge : m.length ≤ p.2.toNat := by omega
      rw [List.getD_eq_default _ _ hge, List.getD_nil] at h
      exact absurd rfl h
  · rw [if_neg h0] at h
    exact absurd rfl h

/-- On a square grid, an open cell lies strictly inside `[0, size)` in both
coordinates. -/
theorem isOpen_bounds_rect {m : Grid} {size : ℕ} {p : Pos}
    (hrect : Rect m size) (h : isOpen m p) :
    0 ≤ p.1 ∧ p.1 < (size : ℤ) ∧ 0 ≤ p.2 ∧ p.2 < (size : ℤ) := by
  obtain ⟨hx0, hy0, hy, hx⟩ := isOpen_inBounds h
  have hyn : p.2.toNat < m.length := by omega
  have hrow := hrect.2 _ (getD_mem ([] : List Char) hyn)
  obtain ⟨hlen, _⟩ := hrect
  exact ⟨hx0, by omega, hy0, by omega⟩

/-- The player's cell is inside the current grid and is not a wall. -/
def PosValid (s : GameState) : Prop :=
  0 ≤ s.playerPos.1 ∧ 0 ≤ s.playerPos.2 ∧
  s.playerPos.2 < (s.maze.length : ℤ) ∧
  s.playerPos.1 < ((s.maze.getD s.playerPos.2.toNat []).length : ℤ) ∧
  getCell s.maze s.playerPos.1 s.playerPos.2 ≠ 'W'

instance (s : GameState) : Decidable (PosValid s) := by
  unfold PosValid
  infer_instance

theorem posValid_of_isOpen {s : GameState} (h : isOpen s.maze s.playerPos) :
    PosValid s := by
  obtain ⟨hx0, hy0, hy, hx⟩ := isOpen_inBounds h
  exact ⟨hx0, hy0, hy, hx, h⟩

/-- The session invariant maintained by the game logic: a square maze of the
level's size, level at least 1, player and start on open cells, every
teleporter on an open cell, and an even teleporter list. -/
def StateInv (s : GameState) : Prop :=
  Rect s.maze (mazeSize s.level) ∧ 1 ≤ s.level ∧
  isOpen s.maze s.playerPos ∧ isOpen s.maze s.startPosition ∧
  (∀ tp ∈ s.teleporterPositions, isOpen s.maze tp) ∧
  s.teleporterPositions.length % 2 = 0

instance (m : Grid) (size : ℕ) : Decidable (Rect m size) := by
  unfold Rect
  infer_instance

instance (s : GameState) : Decidable (StateInv s) := by
  unfold StateInv
  infer_instance

/-- The regenerated maze is square of the level's size and has the Start at
the (in-bounds) player cell. -/
theorem regenMaze_start_rect (level : ℕ) (px py : ℤ) (rng : Rng)
    (hlevel : 1 ≤ level)
    (hx0 : 0 ≤ px) (hxs : px < (mazeSize level : ℤ))
    (hy0 : 0 ≤ py) (hys : py < (mazeSize level : ℤ)) :
    getCell (regenMaze level px py rng).1 px py = 'S' ∧
    Rect (regenMaze level px py rng).1 (mazeSize level) := by
  have G := generateMaze_spec level hlevel rng
  rw [regenMaze_eq]
  dsimp only
  have h2 : Rect (if getCell (if getCell (generateMaze level rng).1 1 1 = 'S'
          then setCell (generateMaze level rng).1 1 1 ' '
          else (generateMaze level rng).1) px py = 'W' then
        setCell (if getCell (generateMaze level rng).1 1 1 = 'S' then
            setCell (generateMaze level rng).1 1 1 ' '
          else (generateMaze level rng).1) px py ' '
      else (if getCell (generateMaze level rng).1 1 1 = 'S' then
          setCell (generateMaze level rng).1 1 1 ' '
        else (generateMaze level rng).1)) (mazeSize level) := by
    split
    · split
      · exact rect_setCell (rect_setCell G.rect _ _ _) _ _ _
      · exact rect_setCell G.rect _ _ _
    · split
      · exact rect_setCell G.rect _ _ _
      · exact G.rect
  exact ⟨getCell_setCell_self_rect h2 'S' hx0 hxs hy0 hys,
    rect_setCell h2 _ _ _⟩

/-- After a regeneration the player stands on the new Start cell, which is
open. -/
theorem regenerate_player_open (s : GameState)
    (hrect : Rect s.maze (mazeSize s.level)) (hlevel : 1 ≤ s.level)
    (hplayer : isOpen s.maze s.playerPos) :
    isOpen (regenerateMazeFromPlayerPosition s).maze
      (regenerateMazeFromPlayerPosition s).playerPos := by
  obtain ⟨hx0, hxs, hy0, hys⟩ := isOpen_bounds_rect hrect hplayer
  have hS := (regenMaze_start_rect s.level s.playerPos.1 s.playerPos.2 s.rng
    hlevel hx0 hxs hy0 hys).1
  unfold regenerateMazeFromPlayerPosition
  dsimp only
  unfold isOpen
  rw [hS]
  decide

/-- The interaction checks after the teleporter step keep the player on an
open cell. -/
theorem checkAfterTeleport_player_open (s : GameState)
    (hrect : Rect s.maze (mazeSize s.level)) (hlevel : 1 ≤ s.level)
    (hplayer : isOpen s.maze s.playerPos) :
    isOpen (checkAfterTeleport s).maze (checkAfterTeleport s).playerPos := by
  unfold checkAfterTeleport
  split
  · exact regenerate_player_open s hrect hlevel hplayer
  · split
    · split
      · exact hplayer
      · exact hplayer
    · split
      · exact hplayer
      · exact hplayer

/-- `checkGameState` keeps the player on an open cell. -/
theorem checkGameState_player_open (s : GameState) (h : StateInv s) :
    isOpen (checkGameState s).maze (checkGameState s).playerPos := by
  obtain ⟨hrect, hlevel, hplayer, hstart, hteles, heven⟩ := h
  unfold checkGameState
  split
  · exact hplayer
  · split
    · exact hplayer
    · split
      · split
        · split
          · split
            · rename_i hdest
              exact hteles _ (getD_mem (0, 0) hdest)
            · exact checkAfterTeleport_player_open _ hrect hlevel hplayer
          · split
            · rename_i hdest
              exact hteles _ (getD_mem (0, 0) hdest)
            · exact checkAfterTeleport_player_open _ hrect hlevel hplayer
        · exact checkAfterTeleport_player_open _ hrect hlevel hplayer
      · exact checkAfterTeleport_player_open _ hrect hlevel hplayer

/-- `movePlayer` keeps the player on an open cell. -/
theorem movePlayer_player_open (s : GameState) (dx dy : ℤ)
    (h : StateInv s) :
    isOpen (movePlayer s dx dy).maze (movePlayer s dx dy).playerPos := by
  obtain ⟨hrect, hlevel, hplayer, hstart, hteles, heven⟩ := h
  unfold movePlayer
  split
  · exact hplayer
  · split
    · rename_i hc
      apply checkGameState_player_open
      split
      · exact ⟨hrect, hlevel, hc.2.2.2.2, hstart, hteles, heven⟩
      · exact ⟨hrect, hlevel, hc.2.2.2.2, hstart, hteles, heven⟩
    · exact hplayer

end Maze

namespace Maze

/-- C10: under the session invariant (square maze of the level's size,
player, start and teleporters on open cells, even teleporter list), each of
the four position-changing operations — a move intent, the interaction
resolver (which performs the teleporter jump), the deferred enemy-collision
reset, and the maze regeneration — leaves the player's position in bounds of
the current grid and on a non-wall cell. -/
theorem C10_player_position_valid (s : GameState) (dx dy : ℤ)
    (h : StateInv s) :
    PosValid (movePlayer s dx dy) ∧ PosValid (checkGameState s) ∧
    PosValid (hitRecovery s) ∧
    PosValid (regenerateMazeFromPlayerPosition s) := by
  obtain ⟨hrect, hlevel, hplayer, hstart, hteles, heven⟩ := h
  refine ⟨posValid_of_isOpen (movePlayer_player_open s dx dy
      ⟨hrect, hlevel, hplayer, hstart, hteles, heven⟩),
    posValid_of_isOpen (checkGameState_player_open s
      ⟨hrect, hlevel, hplayer, hstart, hteles, heven⟩),
    posValid_of_isOpen ?_,
    posValid_of_isOpen (regenerate_player_open s hrect hlevel hplayer)⟩
  unfold hitRecovery
  dsimp only
  exact hstart

/-- Witness for C10 on the demo state (a right-move into the open corridor). -/
theorem C10_player_position_valid_witness :
    PosValid (movePlayer demoState 1 0) ∧ PosValid (checkGameState demoState) ∧
    PosValid (hitRecovery demoState) ∧
    PosValid (regenerateMazeFromPlayerPosition demoState) :=
  C10_player_position_valid demoState 1 0 (by decide)

end Maze

namespace Maze

/-! ### The stalker breadth-first search (C6) -/

/-- A queue entry of the stalker BFS: the cell and the path that led
there. -/
structure QEntry where
  x : ℤ
  y : ℤ
  path : List Pos

/-- The expansion check of the BFS (`newY` against the number of rows,
`newX` against the length of row 0, the cell not a wall), exactly as
written in `moveStalkers`. -/
def bfsOk (m : Grid) (p : Pos) : Prop :=
  0 ≤ p.2 ∧ p.2 < (m.length : ℤ) ∧ 0 ≤ p.1 ∧
    p.1 < (((m.getD 0 []).length : ℤ)) ∧ getCell m p.1 p.2 ≠ 'W'

instance (m : Grid) (p : Pos) : Decidable (bfsOk m p) := by
  unfold bfsOk
  infer_instance

/-- The fixed BFS neighbour order: down, up, right, left. -/
def bfsDirs : List (ℤ × ℤ) := [(0, 1), (0, -1), (1, 0), (-1, 0)]

/-- The mutable BFS state: the pending queue and the visited set (a list,
standing for the source's `Set` of `"y,x"` keys). -/
structure BfsState where
  queue : List QEntry
  visited : List Pos

/-- One neighbour attempt of the BFS expansion: enqueue the stepped cell
with the extended path and mark it visited if the check passes and it is
unvisited. -/
def bfsPush (m : Grid) (e : QEntry) (d : ℤ × ℤ) (st : BfsState) : BfsState :=
  if bfsOk m (e.x + d.1, e.y + d.2) ∧ ¬ (e.x + d.1, e.y + d.2) ∈ st.visited
  then
    ⟨st.queue ++ [⟨e.x + d.1, e.y + d.2, e.path ++ [(e.x + d.1, e.y + d.2)]⟩],
      st.visited ++ [(e.x + d.1, e.y + d.2)]⟩
  else st

/-- The full expansion of a dequeued entry over the four directions in
source order. -/
def bfsExpand (m : Grid) (e : QEntry) (st : BfsState) : BfsState :=
  bfsDirs.foldl (fun acc d => bfsPush m e d acc) st

/-- The BFS main loop with explicit fuel: dequeue, stop with the recorded
path when the goal is reached, otherwise expand and continue. -/
def bfsLoop (m : Grid) (goal : Pos) : ℕ → List QEntry → List Pos →
    Option (List Pos)
  | 0, _, _ => none
  | _ + 1, [], _ => none
  | fuel + 1, e :: rest, visited =>
    if (e.x, e.y) = goal then some e.path
    else
      bfsLoop m goal fuel (bfsExpand m e ⟨rest, visited⟩).queue
        (bfsExpand m e ⟨rest, visited⟩).visited

/-- The start cell followed by every in-bounds cell of the grid (bounds as
the BFS checks them); visited cells always lie in this list, which bounds
the number of BFS iterations. -/
def allCells (m : Grid) (S : Pos) : List Pos :=
  S :: (List.range m.length).flatMap (fun (y : ℕ) =>
    (List.range (m.getD 0 []).length).map (fun (x : ℕ) => ((x : ℤ), (y : ℤ))))

/-- The per-stalker BFS of `moveStalkers`, from the stalker's cell to the
player's cell, given enough fuel for the loop to run to completion. -/
def stalkerBFS (m : Grid) (S goal : Pos) : Option (List Pos) :=
  bfsLoop m goal ((allCells m S).length + 2) [⟨S.1, S.2, [S]⟩] [S]

/-- One stalker's move: the second cell of the found path when one of
length at least 2 exists, otherwise stay. -/
def moveStalker (m : Grid) (player stalker : Pos) : Pos :=
  match stalkerBFS m stalker player with
  | some p => if 1 < p.length then p.getD 1 (0, 0) else stalker
  | none => stalker

/-- The stalker tick: every stalker moves independently via the BFS. -/
def moveStalkers (m : Grid) (player : Pos) (stalkers : List Pos) : List Pos :=
  stalkers.map (fun st => moveStalker m player st)

/-- A path witness: a nonempty list of open cells starting at `a`, ending
at `b`, with consecutive cells 4-adjacent. -/
def ValidPath (m : Grid) (a b : Pos) (p : List Pos) : Prop :=
  p.head? = some a ∧ p.getLast? = some b ∧ List.Chain' Adj p ∧
    ∀ c ∈ p, isOpen m c

/-- Reachability in exactly `n` adjacency steps through open cells. -/
inductive ReachN (m : Grid) (a : Pos) : Pos → ℕ → Prop
  | refl (h : isOpen m a) : ReachN m a a 0
  | tail {b c : Pos} {n : ℕ} (hab : ReachN m a b n) (hadj : Adj b c)
      (hc : isOpen m c) : ReachN m a c (n + 1)

/-- The positions of the entries of a queue. -/
def qpos (Q : List QEntry) : List Pos := Q.map (fun e => (e.x, e.y))

/-- A queue entry at BFS level `n`: its path is a valid path from the start
to its cell, of length `n + 1`. -/
def EntryOk (m : Grid) (S : Pos) (n : ℕ) (e : QEntry) : Prop :=
  ValidPath m S (e.x, e.y) e.path ∧ e.path.length = n + 1

end Maze

namespace Maze

instance (p q : Pos) : Decidable (Adj p q) :=
  inferInstanceAs (Decidable ((p.1 = q.1 ∧ (p.2 = q.2 + 1 ∨ q.2 = p.2 + 1)) ∨
    (p.2 = q.2 ∧ (p.1 = q.1 + 1 ∨ q.1 = p.1 + 1))))

instance (m : Grid) (a b : Pos) (p : List Pos) :
    Decidable (ValidPath m a b p) :=
  inferInstanceAs (Decidable (p.head? = some a ∧ p.getLast? = some b ∧
    List.Chain' Adj p ∧ ∀ c ∈ p, isOpen m c))

/-- Each BFS direction steps to a 4-adjacent cell. -/
theorem adj_of_dir {d : ℤ × ℤ} (hd : d ∈ bfsDirs) (x y : ℤ) :
    Adj (x, y) (x + d.1, y + d.2) := by
  unfold bfsDirs at hd
  unfold Adj
  simp only [List.mem_cons, List.not_mem_nil, or_false] at hd
  rcases hd with h | h | h | h <;> subst h <;> dsimp <;> omega

/-- Conversely every 4-adjacent cell is one BFS direction step away. -/
theorem dir_of_adj {p c : Pos} (h : Adj p c) :
    ∃ d ∈ bfsDirs, c = (p.1 + d.1, p.2 + d.2) := by
  unfold Adj at h
  rcases h with ⟨h1, h2 | h2⟩ | ⟨h1, h2 | h2⟩
  · exact ⟨(0, -1), by simp [bfsDirs], by rw [Prod.ext_iff]; exact ⟨by omega, by omega⟩⟩
  · exact ⟨(0, 1), by simp [bfsDirs], by rw [Prod.ext_iff]; exact ⟨by omega, by omega⟩⟩
  · exact ⟨(-1, 0), by simp [bfsDirs], by rw [Prod.ext_iff]; exact ⟨by omega, by omega⟩⟩
  · exact ⟨(1, 0), by simp [bfsDirs], by rw [Prod.ext_iff]; exact ⟨by omega, by omega⟩⟩

/-- On a square grid the BFS expansion check accepts exactly the open
cells. -/
theorem bfsOk_iff_isOpen {m : Grid} {size : ℕ} (hrect : Rect m size)
    {p : Pos} : bfsOk m p ↔ isOpen m p := by
  constructor
  · exact fun h => h.2.2.2.2
  · intro h
    obtain ⟨hx0, hy0, hy, hx⟩ := isOpen_inBounds h
    have hyn : p.2.toNat < m.length := by omega
    have hrow := hrect.2 _ (getD_mem ([] : List Char) hyn)
    have h0n : 0 < m.length := by omega
    have hrow0 := hrect.2 _ (getD_mem ([] : List Char) h0n)
    obtain ⟨hlen, _⟩ := hrect
    exact ⟨hy0, hy, hx0, by omega, h⟩

theorem validPath_singleton {m : Grid} {a : Pos} (h : isOpen m a) :
    ValidPath m a a [a] :=
  ⟨rfl, rfl, List.chain'_singleton a, by simpa using h⟩

theorem validPath_append {m : Grid} {a b c : Pos} {p : List Pos}
    (h : ValidPath m a b p) (hadj : Adj b c) (hc : isOpen m c) :
    ValidPath m a c (p ++ [c]) := by
  obtain ⟨hh, hl, hch, hop⟩ := h
  rcases p with _ | ⟨x, xs⟩
  · cases hh
  refine ⟨by simpa using hh, by rw [List.getLast?_concat], ?_, ?_⟩
  · rw [List.chain'_append]
    refine ⟨hch, List.chain'_singleton c, ?_⟩
    intro y hy z hz
    have hy' : y = b := by
      rw [hl] at hy
      exact (Option.mem_some.mp hy).symm
    have hz' : z = c := by
      simp only [List.head?_cons] at hz
      exact (Option.mem_some.mp hz).symm
    rw [hy', hz']
    exact hadj
  · intro d hd
    rcases List.mem_append.mp hd with hd | hd
    · exact hop d hd
    · rw [List.mem_singleton] at hd
      subst hd
      exact hc

theorem ReachN.reach {m : Grid} {a b : Pos} {n : ℕ}
    (h : ReachN m a b n) : Reach m a b := by
  induction h with
  | refl h => exact Reach.refl _ h
  | tail hab hadj hc ih => exact Reach.tail ih hadj hc

theorem reach_reachN {m : Grid} {a b : Pos} (h : Reach m a b) :
    ∃ n, ReachN m a b n := by
  induction h with
  | refl h => exact ⟨0, ReachN.refl h⟩
  | tail hpq hadj hr ih =>
    obtain ⟨n, hn⟩ := ih
    exact ⟨n + 1, hn.tail hadj hr⟩

theorem reachN_toPath {m : Grid} {a b : Pos} {n : ℕ} (h : ReachN m a b n) :
    ∃ p, ValidPath m a b p ∧ p.length = n + 1 := by
  induction h with
  | refl h => exact ⟨[a], validPath_singleton h, rfl⟩
  | tail hab hadj hc ih =>
    obtain ⟨p, hp, hlen⟩ := ih
    refine ⟨p ++ [_], validPath_append hp hadj hc, ?_⟩
    rw [List.length_append, hlen]
    rfl

theorem validPath_reachN {m : Grid} {a b : Pos} {p : List Pos}
    (h : ValidPath m a b p) : ReachN m a b (p.length - 1) := by
  induction p using List.reverseRecOn generalizing b with
  | nil => cases h.1
  | append_singleton q c ih =>
    rcases q with _ | ⟨x, xs⟩
    · obtain ⟨hh, hl, _, hop⟩ := h
      have hca : c = a := by simpa using hh
      have hcb : c = b := by simpa using hl
      subst hca
      rw [← hcb]
      exact ReachN.refl (hop c (by simp))
    · obtain ⟨hh, hl, hch, hop⟩ := h
      rw [List.getLast?_concat] at hl
      have hcb : c = b := Option.some.inj hl
      rw [List.chain'_append] at hch
      obtain ⟨hch1, _, hR⟩ := hch
      have hne : x :: xs ≠ [] := by simp
      have hlast : (x :: xs).getLast? = some ((x :: xs).getLast hne) :=
        List.getLast?_eq_getLast _ hne
      have hadj : Adj ((x :: xs).getLast hne) c :=
        hR _ (by rw [hlast]; exact Option.mem_some_self _) c
          (Option.mem_some_self c)
      have hvp : ValidPath m a ((x :: xs).getLast hne) (x :: xs) :=
        ⟨by simpa using hh, hlast, hch1,
          fun d hd => hop d (List.mem_append.mpr (Or.inl hd))⟩
      have hstep := ReachN.tail (ih hvp) hadj
        (hop c (List.mem_append.mpr (Or.inr (by simp))))
      rw [← hcb]
      have hl1 : ((x :: xs) ++ [c]).length - 1 = ((x :: xs).length - 1) + 1 := by
        rw [List.length_append]
        simp
      rw [hl1]
      exact hstep

theorem reach_of_validPath {m : Grid} {a b : Pos} {p : List Pos}
    (h : ValidPath m a b p) : Reach m a b :=
  (validPath_reachN h).reach

/-- The start cell is in `allCells`. -/
theorem start_mem_allCells (m : Grid) (S : Pos) : S ∈ allCells m S :=
  List.mem_cons_self _ _

/-- Every cell accepted by the BFS check is in `allCells`. -/
theorem mem_allCells_of_bfsOk {m : Grid} {S p : Pos} (h : bfsOk m p) :
    p ∈ allCells m S := by
  obtain ⟨hy0, hy, hx0, hx, _⟩ := h
  unfold allCells
  refine List.mem_cons.mpr (Or.inr ?_)
  rw [List.mem_flatMap]
  refine ⟨p.2.toNat, List.mem_range.mpr (by omega), ?_⟩
  rw [List.mem_map]
  refine ⟨p.1.toNat, List.mem_range.mpr (by omega), ?_⟩
  rw [Prod.ext_iff]
  exact ⟨by dsimp only; omega, by dsimp only; omega⟩

end Maze

namespace Maze

/-- The invariant of the BFS loop between iterations, at level `ℓ`: the
queue splits into the level-`ℓ` entries `A` followed by the level-`ℓ + 1`
entries `B`; every entry carries a valid path of its level's length and no
shorter path to its cell exists; the visited list is duplicate-free,
contains the start and every queued cell, holds only open cells (plus the
start) that all lie in `allCells`; every cell within distance `ℓ` is
already visited; every visited cell no longer in the queue has all its open
neighbours visited; and the goal, if visited, is still queued. -/
structure BfsInv (m : Grid) (S goal : Pos) (l : ℕ) (A B : List QEntry)
    (V : List Pos) : Prop where
  entriesA : ∀ e ∈ A, EntryOk m S l e
  entriesB : ∀ e ∈ B, EntryOk m S (l + 1) e
  minA : ∀ e ∈ A, ∀ n, ReachN m S (e.x, e.y) n → l ≤ n
  minB : ∀ e ∈ B, ∀ n, ReachN m S (e.x, e.y) n → l + 1 ≤ n
  nodupV : V.Nodup
  startV : S ∈ V
  queueV : ∀ e ∈ A ++ B, (e.x, e.y) ∈ V
  openV : ∀ v ∈ V, isOpen m v
  compl : ∀ c n, ReachN m S c n → n ≤ l → c ∈ V
  closed : ∀ v ∈ V, ¬ v ∈ qpos (A ++ B) → ∀ c, Adj v c → isOpen m c → c ∈ V
  goalQ : goal ∈ V → goal ∈ qpos (A ++ B)
  cardV : ∀ v ∈ V, v ∈ allCells m S

/-- The invariant during the expansion of the dequeued entry `e`: as
`BfsInv`, except that `e`'s cell still counts as queued for the closure and
goal conditions (its neighbours are only being enqueued now). -/
structure MidInv (m : Grid) (S goal : Pos) (l : ℕ) (e : QEntry)
    (A B : List QEntry) (V : List Pos) : Prop where
  eOk : EntryOk m S l e
  eV : (e.x, e.y) ∈ V
  entriesA : ∀ f ∈ A, EntryOk m S l f
  entriesB : ∀ f ∈ B, EntryOk m S (l + 1) f
  minA : ∀ f ∈ A, ∀ n, ReachN m S (f.x, f.y) n → l ≤ n
  minB : ∀ f ∈ B, ∀ n, ReachN m S (f.x, f.y) n → l + 1 ≤ n
  nodupV : V.Nodup
  startV : S ∈ V
  queueV : ∀ f ∈ A ++ B, (f.x, f.y) ∈ V
  openV : ∀ v ∈ V, isOpen m v
  compl : ∀ c n, ReachN m S c n → n ≤ l → c ∈ V
  closed : ∀ v ∈ V, ¬ v ∈ (e.x, e.y) :: qpos (A ++ B) → ∀ c, Adj v c →
    isOpen m c → c ∈ V
  goalQ : goal ∈ V → goal ∈ (e.x, e.y) :: qpos (A ++ B)
  cardV : ∀ v ∈ V, v ∈ allCells m S

theorem mem_qpos {Q : List QEntry} {f : QEntry} (hf : f ∈ Q) :
    (f.x, f.y) ∈ qpos Q := List.mem_map_of_mem _ hf

/-- When the level-`l` entries are exhausted, the remaining queue is the
next level. -/
theorem shift_inv {m : Grid} {S goal : Pos} {l : ℕ} {B : List QEntry}
    {V : List Pos} (h : BfsInv m S goal l [] B V) :
    BfsInv m S goal (l + 1) B [] V := by
  refine ⟨h.entriesB, by simp, h.minB, by simp, h.nodupV, h.startV,
    ?_, h.openV, ?_, ?_, ?_, h.cardV⟩
  · intro e he
    apply h.queueV e
    rw [List.append_nil] at he
    exact he
  · intro c n hc hn
    rcases Nat.lt_or_ge n (l + 1) with hlt | hge
    · exact h.compl c n hc (by omega)
    · have hn1 : n = l + 1 := by omega
      subst hn1
      cases hc with
      | tail hab hadj hc2 =>
        rename_i b
        have hbV : b ∈ V := h.compl b l hab (le_refl l)
        have hbnotq : ¬ b ∈ qpos ([] ++ B) := by
          intro hbq
          obtain ⟨f, hf, hfe⟩ := List.mem_map.mp hbq
          have := h.minB f hf l (by rw [hfe]; exact hab)
          omega
        exact h.closed b hbV hbnotq c hadj hc2
  · intro v hv hnq c hadj hc
    apply h.closed v hv _ c hadj hc
    rw [List.append_nil] at hnq
    exact hnq
  · intro hg
    have := h.goalQ hg
    rw [List.append_nil]
    exact this

/-- Dequeuing the head entry of the level-`l` block. -/
theorem pop_inv {m : Grid} {S goal : Pos} {l : ℕ} {e : QEntry}
    {A B : List QEntry} {V : List Pos}
    (h : BfsInv m S goal l (e :: A) B V) : MidInv m S goal l e A B V :=
  ⟨h.entriesA e (by simp), h.queueV e (by simp),
    fun f hf => h.entriesA f (List.mem_cons_of_mem _ hf), h.entriesB,
    fun f hf => h.minA f (List.mem_cons_of_mem _ hf), h.minB,
    h.nodupV, h.startV,
    fun f hf => h.queueV f (by
      rcases List.mem_append.mp hf with hf | hf
      · exact List.mem_append.mpr (Or.inl (List.mem_cons_of_mem _ hf))
      · exact List.mem_append.mpr (Or.inr hf)),
    h.openV, h.compl, h.closed, h.goalQ, h.cardV⟩

/-- After the expansion covered every open neighbour of the dequeued
non-goal entry, its cell becomes fully processed. -/
theorem post_inv {m : Grid} {S goal : Pos} {l : ℕ} {e : QEntry}
    {A B : List QEntry} {V : List Pos} (h : MidInv m S goal l e A B V)
    (hcov : ∀ c, Adj (e.x, e.y) c → isOpen m c → c ∈ V)
    (hgoal : (e.x, e.y) ≠ goal) : BfsInv m S goal l A B V := by
  refine ⟨h.entriesA, h.entriesB, h.minA, h.minB, h.nodupV, h.startV,
    h.queueV, h.openV, h.compl, ?_, ?_, h.cardV⟩
  · intro v hv hnq c hadj hc
    by_cases hve : v = (e.x, e.y)
    · subst hve
      exact hcov c hadj hc
    · refine h.closed v hv ?_ c hadj hc
      intro hmem
      rcases List.mem_cons.mp hmem with h1 | h1
      · exact hve h1
      · exact hnq h1
  · intro hg
    rcases List.mem_cons.mp (h.goalQ hg) with h1 | h1
    · exact absurd h1.symm hgoal
    · exact h1

end Maze

namespace Maze

theorem qpos_append (Q Q' : List QEntry) :
    qpos (Q ++ Q') = qpos Q ++ qpos Q' := List.map_append _ _ _

/-- One push preserves the mid-expansion invariant, extends the visited set
monotonically, keeps `queue length - visited length` constant, and
guarantees the pushed cell is visited afterwards whenever it passes the
check. -/
theorem bfsPush_inv {m : Grid}
    {S goal : Pos} {l : ℕ} {e : QEntry} {A B : List QEntry} {V : List Pos}
    (d : ℤ × ℤ) (hd : d ∈ bfsDirs)
    (h : MidInv m S goal l e A B V) :
    ∃ B' V', bfsPush m e d ⟨A ++ B, V⟩ = ⟨A ++ B', V'⟩ ∧
      MidInv m S goal l e A B' V' ∧
      (∀ v ∈ V, v ∈ V') ∧
      (A ++ B').length + V.length = (A ++ B).length + V'.length ∧
      (bfsOk m (e.x + d.1, e.y + d.2) → (e.x + d.1, e.y + d.2) ∈ V') := by
  unfold bfsPush
  dsimp only
  split
  · rename_i hcond
    obtain ⟨hok, hnv⟩ := hcond
    refine ⟨B ++ [⟨e.x + d.1, e.y + d.2,
        e.path ++ [(e.x + d.1, e.y + d.2)]⟩],
      V ++ [(e.x + d.1, e.y + d.2)], ?_, ?_, ?_, ?_, ?_⟩
    · rw [List.append_assoc]
    · refine ⟨h.eOk, List.mem_append_left _ h.eV, h.entriesA, ?_, h.minA,
        ?_, ?_, List.mem_append_left _ h.startV, ?_, ?_, ?_, ?_, ?_, ?_⟩
      · intro f hf
        rcases List.mem_append.mp hf with hf | hf
        · exact h.entriesB f hf
        · rw [List.mem_singleton] at hf
          subst hf
          refine ⟨validPath_append h.eOk.1 (adj_of_dir hd e.x e.y)
            hok.2.2.2.2, ?_⟩
          rw [List.length_append, h.eOk.2]
          rfl
      · intro f hf n hn
        rcases List.mem_append.mp hf with hf | hf
        · exact h.minB f hf n hn
        · rw [List.mem_singleton] at hf
          subst hf
          by_contra hlt
          exact hnv (h.compl _ n hn (by omega))
      · rw [List.nodup_append]
        refine ⟨h.nodupV, List.nodup_singleton _, ?_⟩
        intro a ha ha'
        rw [List.mem_singleton] at ha'
        subst ha'
        exact hnv ha
      · intro f hf
        rcases List.mem_append.mp hf with hf | hf
        · exact List.mem_append_left _ (h.queueV f (List.mem_append.mpr
            (Or.inl hf)))
        · rcases List.mem_append.mp hf with hf | hf
          · exact List.mem_append_left _ (h.queueV f (List.mem_append.mpr
              (Or.inr hf)))
          · rw [List.mem_singleton] at hf
            subst hf
            exact List.mem_append_right _ (by simp)
      · intro v hv
        rcases List.mem_append.mp hv with hv | hv
        · exact h.openV v hv
        · rw [List.mem_singleton] at hv
          subst hv
          exact hok.2.2.2.2
      · intro c n hc hn
        exact List.mem_append_left _ (h.compl c n hc hn)
      · intro v hv hnq c hadj hc
        rcases List.mem_append.mp hv with hv | hv
        · refine List.mem_append_left _ (h.closed v hv ?_ c hadj hc)
          intro hmem
          apply hnq
          rcases List.mem_cons.mp hmem with h1 | h1
          · exact List.mem_cons.mpr (Or.inl h1)
          · refine List.mem_cons.mpr (Or.inr ?_)
            rw [qpos_append] at h1
            rw [qpos_append, qpos_append]
            rcases List.mem_append.mp h1 with h1 | h1
            · exact List.mem_append.mpr (Or.inl h1)
            · exact List.mem_append.mpr (Or.inr
                (List.mem_append.mpr (Or.inl h1)))
        · exfalso
          rw [List.mem_singleton] at hv
          apply hnq
          subst hv
          refine List.mem_cons.mpr (Or.inr ?_)
          rw [qpos_append, qpos_append]
          refine List.mem_append.mpr (Or.inr (List.mem_append.mpr
            (Or.inr ?_)))
          simp [qpos]
      · intro hg
        rcases List.mem_append.mp hg with hg | hg
        · rcases List.mem_cons.mp (h.goalQ hg) with h1 | h1
          · exact List.mem_cons.mpr (Or.inl h1)
          · refine List.mem_cons.mpr (Or.inr ?_)
            rw [qpos_append] at h1
            rw [qpos_append, qpos_append]
            rcases List.mem_append.mp h1 with h1 | h1
            · exact List.mem_append.mpr (Or.inl h1)
            · exact List.mem_append.mpr (Or.inr
                (List.mem_append.mpr (Or.inl h1)))
        · rw [List.mem_singleton] at hg
          refine List.mem_cons.mpr (Or.inr ?_)
          rw [qpos_append, qpos_append]
          refine List.mem_append.mpr (Or.inr (List.mem_append.mpr
            (Or.inr ?_)))
          rw [hg]
          simp [qpos]
      · intro v hv
        rcases List.mem_append.mp hv with hv | hv
        · exact h.cardV v hv
        · rw [List.mem_singleton] at hv
          subst hv
          exact mem_allCells_of_bfsOk hok
    · intro v hv
      exact List.mem_append_left _ hv
    · simp only [List.length_append, List.length_cons, List.length_nil]
      omega
    · intro _
      exact List.mem_append_right _ (by simp)
  · rename_i hcond
    refine ⟨B, V, rfl, h, fun v hv => hv, rfl, ?_⟩
    intro hok
    by_contra hnv
    exact hcond ⟨hok, hnv⟩

end Maze

namespace Maze

theorem bfsExpand_eq (m : Grid) (e : QEntry) (st : BfsState) :
    bfsExpand m e st =
      bfsPush m e (-1, 0) (bfsPush m e (1, 0) (bfsPush m e (0, -1)
        (bfsPush m e (0, 1) st))) := rfl

/-- The full expansion of a dequeued entry preserves the mid-expansion
invariant, keeps `queue length - visited length` constant, and visits every
open neighbour of the entry's cell. -/
theorem bfsExpand_inv {m : Grid} {size : ℕ} (hrect : Rect m size)
    {S goal : Pos} {l : ℕ} {e : QEntry} {A B : List QEntry} {V : List Pos}
    (h : MidInv m S goal l e A B V) :
    ∃ B' V', bfsExpand m e ⟨A ++ B, V⟩ = ⟨A ++ B', V'⟩ ∧
      MidInv m S goal l e A B' V' ∧ (∀ v ∈ V, v ∈ V') ∧
      (A ++ B').length + V.length = (A ++ B).length + V'.length ∧
      ∀ c, Adj (e.x, e.y) c → isOpen m c → c ∈ V' := by
  obtain ⟨B1, V1, he1, h1, hsub1, hlen1, hcov1⟩ :=
    bfsPush_inv (0, 1) (by simp [bfsDirs]) h
  obtain ⟨B2, V2, he2, h2, hsub2, hlen2, hcov2⟩ :=
    bfsPush_inv (0, -1) (by simp [bfsDirs]) h1
  obtain ⟨B3, V3, he3, h3, hsub3, hlen3, hcov3⟩ :=
    bfsPush_inv (1, 0) (by simp [bfsDirs]) h2
  obtain ⟨B4, V4, he4, h4, hsub4, hlen4, hcov4⟩ :=
    bfsPush_inv (-1, 0) (by simp [bfsDirs]) h3
  refine ⟨B4, V4, ?_, h4, ?_, ?_, ?_⟩
  · rw [bfsExpand_eq, he1, he2, he3, he4]
  · intro v hv
    exact hsub4 _ (hsub3 _ (hsub2 _ (hsub1 _ hv)))
  · omega
  · intro c hadj hopen
    obtain ⟨d, hd, hc⟩ := dir_of_adj hadj
    have hok : bfsOk m (e.x + d.1, e.y + d.2) :=
      (bfsOk_iff_isOpen hrect).mpr (hc ▸ hopen)
    unfold bfsDirs at hd
    simp only [List.mem_cons, List.not_mem_nil, or_false] at hd
    rcases hd with h' | h' | h' | h'
    · subst h'
      rw [hc]
      exact hsub4 _ (hsub3 _ (hsub2 _ (hcov1 hok)))
    · subst h'
      rw [hc]
      exact hsub4 _ (hsub3 _ (hcov2 hok))
    · subst h'
      rw [hc]
      exact hsub4 _ (hcov3 hok)
    · subst h'
      rw [hc]
      exact hcov4 hok

end Maze

namespace Maze

/-- What the BFS result means: a found path is a valid path to the goal of
minimal length; no result means no valid path exists at all. -/
def BfsFound (m : Grid) (S goal : Pos) : Option (List Pos) → Prop
  | some p => ValidPath m S goal p ∧
      ∀ q, ValidPath m S goal q → p.length ≤ q.length
  | none => ∀ q, ¬ ValidPath m S goal q

theorem bfsLoop_nil (m : Grid) (goal : Pos) (fuel : ℕ) (V : List Pos) :
    bfsLoop m goal (fuel + 1) [] V = none := rfl

theorem bfsLoop_cons (m : Grid) (goal : Pos) (fuel : ℕ) (e : QEntry)
    (rest : List QEntry) (V : List Pos) :
    bfsLoop m goal (fuel + 1) (e :: rest) V =
      if (e.x, e.y) = goal then some e.path
      else bfsLoop m goal fuel (bfsExpand m e ⟨rest, V⟩).queue
        (bfsExpand m e ⟨rest, V⟩).visited := rfl

/-- With an empty queue the visited set is closed under open adjacency, so
nothing valid leads from the start to the unvisited goal. -/
theorem bfs_empty_unreachable {m : Grid} {S goal : Pos} {l : ℕ}
    {V : List Pos} (h : BfsInv m S goal l [] [] V) :
    ∀ q, ¬ ValidPath m S goal q := by
  intro q hq
  have hall : ∀ c n, ReachN m S c n → c ∈ V := by
    intro c n hc
    induction hc with
    | refl _ => exact h.startV
    | tail hab hadj hc2 ih =>
      exact h.closed _ ih (by simp [qpos]) _ hadj hc2
  have hgV : goal ∈ V := hall goal _ (validPath_reachN hq)
  have := h.goalQ hgV
  simp [qpos] at this

/-- Processing the head entry of the level block: stop correctly at the
goal, or expand and recurse with the invariant re-established and the
termination measure decreased. -/
theorem bfsLoop_step (m : Grid) {size : ℕ} (hrect : Rect m size)
    (S goal : Pos) (fuel : ℕ)
    (ih : ∀ l A B V, BfsInv m S goal l A B V →
      (A ++ B).length + ((allCells m S).length - V.length) < fuel →
      BfsFound m S goal (bfsLoop m goal fuel (A ++ B) V))
    (l : ℕ) (e : QEntry) (A B : List QEntry) (V : List Pos)
    (hInv : BfsInv m S goal l (e :: A) B V)
    (hb : ((e :: A) ++ B).length + ((allCells m S).length - V.length) <
      fuel + 1) :
    BfsFound m S goal (bfsLoop m goal (fuel + 1) ((e :: A) ++ B) V) := by
  have hq : (e :: A) ++ B = e :: (A ++ B) := rfl
  rw [hq, bfsLoop_cons]
  by_cases hgoal : (e.x, e.y) = goal
  · rw [if_pos hgoal]
    have hEok := hInv.entriesA e (by simp)
    refine ⟨?_, ?_⟩
    · rw [← hgoal]
      exact hEok.1
    · intro q hqv
      have hr := validPath_reachN hqv
      have hq1 : 1 ≤ q.length := by
        rcases q with _ | ⟨a, q⟩
        · cases hqv.1
        · simp
      have hmin := hInv.minA e (by simp) (q.length - 1)
        (by rw [hgoal]; exact hr)
      rw [hEok.2]
      omega
  · rw [if_neg hgoal]
    have hMid := pop_inv hInv
    obtain ⟨B', V', heq, hMid', hsub, hlen, hcov⟩ := bfsExpand_inv hrect hMid
    rw [heq]
    dsimp only
    have hInv2 := post_inv hMid' (fun c hadj hc => hcov c hadj hc) hgoal
    apply ih l A B' V' hInv2
    have hVle : V.length ≤ V'.length :=
      nodup_subset_length_le hInv.nodupV hsub
    have hVN : V'.length ≤ (allCells m S).length :=
      nodup_subset_length_le hMid'.nodupV hMid'.cardV
    simp only [List.length_append, List.length_cons] at hb hlen ⊢
    omega

/-- The BFS loop, run with any invariant state and enough fuel, computes a
shortest valid path to the goal or correctly reports unreachability. -/
theorem bfsLoop_correct (m : Grid) {size : ℕ} (hrect : Rect m size)
    (S goal : Pos) :
    ∀ fuel l A B V, BfsInv m S goal l A B V →
      (A ++ B).length + ((allCells m S).length - V.length) < fuel →
      BfsFound m S goal (bfsLoop m goal fuel (A ++ B) V) := by
  intro fuel
  induction fuel with
  | zero =>
    intro l A B V hInv hb
    exact absurd hb (Nat.not_lt_zero _)
  | succ fuel ih =>
    intro l A B V hInv hb
    rcases A with _ | ⟨e, A⟩
    · rcases B with _ | ⟨e, B⟩
      · exact bfs_empty_unreachable hInv
      · have hInv' := shift_inv hInv
        have heq : ([] : List QEntry) ++ (e :: B) = (e :: B) ++ [] := by simp
        rw [heq]
        apply bfsLoop_step m hrect S goal fuel ih (l + 1) e B [] V hInv'
        simp only [List.length_append, List.length_cons, List.length_nil]
          at hb ⊢
        omega
    · exact bfsLoop_step m hrect S goal fuel ih l e A B V hInv hb

end Maze

namespace Maze

/-- The per-stalker BFS as called by `moveStalkers` computes a shortest
valid path or correctly reports unreachability. -/
theorem stalkerBFS_correct (m : Grid) {size : ℕ} (hrect : Rect m size)
    (S goal : Pos) (hs : isOpen m S) :
    BfsFound m S goal (stalkerBFS m S goal) := by
  unfold stalkerBFS
  have hInv : BfsInv m S goal 0 [⟨S.1, S.2, [S]⟩] [] [S] := by
    refine ⟨?_, by simp, ?_, by simp, List.nodup_singleton _, by simp,
      ?_, ?_, ?_, ?_, ?_, ?_⟩
    · intro e he
      rw [List.mem_singleton] at he
      subst he
      exact ⟨validPath_singleton hs, rfl⟩
    · intro e he n hn
      omega
    · intro e he
      rw [List.append_nil, List.mem_singleton] at he
      subst he
      simp
    · intro v hv
      rw [List.mem_singleton] at hv
      subst hv
      exact hs
    · intro c n hc hn
      have hn0 : n = 0 := by omega
      subst hn0
      cases hc
      exact List.mem_singleton.mpr rfl
    · intro v hv hnq c hadj hc
      exfalso
      apply hnq
      rw [List.mem_singleton] at hv
      subst hv
      simp [qpos]
    · intro hg
      rw [List.mem_singleton] at hg
      subst hg
      simp [qpos]
    · intro v hv
      rw [List.mem_singleton] at hv
      rw [hv]
      exact start_mem_allCells m S
  have hN : 1 ≤ (allCells m S).length := by
    unfold allCells
    simp
  have hb : ([(⟨S.1, S.2, [S]⟩ : QEntry)] ++ ([] : List QEntry)).length +
      ((allCells m S).length - [S].length) <
      (allCells m S).length + 2 := by
    simp only [List.length_append, List.length_cons, List.length_nil]
    omega
  exact bfsLoop_correct m hrect S goal ((allCells m S).length + 2) 0
    [⟨S.1, S.2, [S]⟩] [] [S] hInv hb

/-- One stalker's move is faithful to the BFS: stay when no path of open
cells exists, step to the second cell of a shortest path otherwise, stay
when already on the player. -/
theorem moveStalker_spec (m : Grid) {size : ℕ} (hrect : Rect m size)
    (player st : Pos) (hst : isOpen m st) :
    (¬ Reach m st player → moveStalker m player st = st) ∧
    (Reach m st player → st ≠ player →
      ∃ p, ValidPath m st player p ∧
        (∀ q, ValidPath m st player q → p.length ≤ q.length) ∧
        1 < p.length ∧ moveStalker m player st = p.getD 1 (0, 0)) ∧
    (st = player → moveStalker m player st = st) := by
  have hc := stalkerBFS_correct m hrect st player hst
  refine ⟨?_, ?_, ?_⟩
  · intro hnr
    unfold moveStalker
    cases hres : stalkerBFS m st player with
    | none => rfl
    | some p =>
      rw [hres] at hc
      exact absurd (reach_of_validPath hc.1) hnr
  · intro hr hne
    unfold moveStalker
    cases hres : stalkerBFS m st player with
    | none =>
      rw [hres] at hc
      obtain ⟨n, hn⟩ := reach_reachN hr
      obtain ⟨p, hp, _⟩ := reachN_toPath hn
      exact absurd hp (hc p)
    | some p =>
      rw [hres] at hc
      have hlen : 1 < p.length := by
        by_contra hle
        obtain ⟨hh, hl, _, _⟩ := hc.1
        rcases p with _ | ⟨a, q⟩
        · cases hh
        rcases q with _ | ⟨b, q⟩
        · have h1 : a = st := by simpa using hh
          have h2 : a = player := by simpa using hl
          exact hne (h1 ▸ h2)
        · simp at hle
      dsimp only
      rw [if_pos hlen]
      exact ⟨p, hc.1, hc.2, hlen, rfl⟩
  · intro heq
    subst heq
    have hres : stalkerBFS m st st = some [st] := by
      unfold stalkerBFS
      show bfsLoop m st ((allCells m st).length + 1 + 1)
        [⟨st.1, st.2, [st]⟩] [st] = some [st]
      rw [bfsLoop_cons, if_pos rfl]
    unfold moveStalker
    rw [hres]
    dsimp only
    rw [if_neg (by simp)]

end Maze

namespace Maze

/-- C6: on a stalker tick each stalker independently runs the BFS (fixed
neighbour order down, up, right, left, with a visited set) from its cell to
the player's cell over non-wall cells of the square grid; when some path of
open cells exists and the stalker is not already on the player, it moves to
the second cell of a shortest valid path (one step along its first edge);
when no such path exists, or it already stands on the player, it stays. -/
theorem C6_stalker_bfs (m : Grid) (size : ℕ) (player : Pos)
    (stalkers : List Pos) (hrect : Rect m size)
    (hopen : ∀ st ∈ stalkers, isOpen m st) :
    moveStalkers m player stalkers =
      stalkers.map (fun st => moveStalker m player st) ∧
    ∀ st ∈ stalkers,
      (¬ Reach m st player → moveStalker m player st = st) ∧
      (Reach m st player → st ≠ player →
        ∃ p, ValidPath m st player p ∧
          (∀ q, ValidPath m st player q → p.length ≤ q.length) ∧
          1 < p.length ∧ moveStalker m player st = p.getD 1 (0, 0)) ∧
      (st = player → moveStalker m player st = st) :=
  ⟨rfl, fun st hst => moveStalker_spec m hrect player st (hopen st hst)⟩

/-- Witness for C6 on the demo maze: the stalker at the start `(1, 1)`
chasing the player on the Exit cell `(3, 3)` steps along a shortest valid
path. -/
theorem C6_stalker_bfs_witness :
    ∃ p, ValidPath demoMaze (1, 1) (3, 3) p ∧
      (∀ q, ValidPath demoMaze (1, 1) (3, 3) q → p.length ≤ q.length) ∧
      1 < p.length ∧ moveStalker demoMaze (3, 3) (1, 1) = p.getD 1 (0, 0) :=
  ((C6_stalker_bfs demoMaze 7 (3, 3) [(1, 1)] (by decide) (by decide)).2
    (1, 1) (by decide)).2.1
    (reach_of_validPath
      (show ValidPath demoMaze (1, 1) (3, 3)
          [(1, 1), (1, 2), (1, 3), (1, 4), (1, 5), (2, 5), (3, 5),
            (3, 4), (3, 3)] from
        ⟨rfl, rfl,
          by
            simp only [List.chain'_cons, List.chain'_singleton, and_true]
            exact ⟨by decide, by decide, by decide, by decide, by decide,
              by decide, by decide, by decide⟩,
          by decide⟩))
    (by decide)

end Maze

namespace Maze

/-- C3: for every level ≥ 1 and every random outcome, the teleporter
positions form an even-length sequence at both call sites of
`spawnTeleporters`: the level-loading pipeline and the respawn performed by
a maze regeneration (for every game state at that level, hence for every
player position and random tape). -/
theorem C3_teleporters_even (level : ℕ) (rng : Rng) (hlevel : 1 ≤ level) :
    (loadLevelData level rng).teleporters.length % 2 = 0 ∧
    ∀ s : GameState, s.level = level →
      (regenerateMazeFromPlayerPosition s).teleporterPositions.length % 2
        = 0 := by
  constructor
  · unfold loadLevelData
    dsimp only
    rw [findS_generated hlevel]
    dsimp only
    apply spawnTeleporters_even
    · intro _
      exact (generateMaze_spec level hlevel (rng.next 12).2).rect.1
    · intro h20 a ha hne
      have hG := generateMaze_spec level hlevel (rng.next 12).2
      obtain ⟨hsize7, hszodd, heq⟩ := mazeSize_facts hlevel
      have hsize45 : 45 ≤ mazeSize level := by omega
      have hlat : LatticePos (mazeSize level)
          (((2 * a + 3 : ℕ) : ℤ), ((3 : ℕ) : ℤ)) :=
        latticePos_mk (by omega) (by omega) (by omega) (by omega) (by omega)
          (by omega)
      rcases hG.cells ((2 * a + 3 : ℕ) : ℤ) ((3 : ℕ) : ℤ)
          (by intro hc; rw [Prod.mk.injEq] at hc; omega)
          (by intro hc; rw [Prod.mk.injEq] at hc; omega) with hW | hSp
      · exact absurd hW (hG.latOpen _ hlat)
      · exact hSp
    · exact spawnRegenerateIcons_len _ _ _ _
  · intro s hslevel
    subst hslevel
    unfold regenerateMazeFromPlayerPosition
    dsimp only
    apply spawnTeleporters_even
    · intro h20
      exact (regenMaze_rect s.level s.playerPos.1 s.playerPos.2 s.rng
        (by omega)).1
    · intro h20 a ha hne
      have h1 : 1 ≤ s.level := by omega
      obtain ⟨hsize7, hszodd, heq⟩ := mazeSize_facts h1
      have hsize45 : 45 ≤ mazeSize s.level := by omega
      apply regenMaze_cell_space s.level s.playerPos.1 s.playerPos.2 s.rng h1
      · exact latticePos_mk (by omega) (by omega) (by omega) (by omega)
          (by omega) (by omega)
      · intro hc
        rw [Prod.mk.injEq] at hc
        omega
      · intro hc
        rw [Prod.mk.injEq] at hc
        omega
      · exact hne
    · exact spawnRegenerateIcons_len _ _ _ _

/-- Witness for C3 at level 1: the load pipeline with the all-zero tape and
the regeneration of the demo state both yield even teleporter lists. -/
theorem C3_teleporters_even_witness :
    (loadLevelData 1 zeroRng).teleporters.length % 2 = 0 ∧
    (regenerateMazeFromPlayerPosition demoState).teleporterPositions.length
      % 2 = 0 := by
  have h := C3_teleporters_even 1 zeroRng (by decide)
  exact ⟨h.1, h.2 demoState rfl⟩

end Maze
